import Mathlib

/-!
# gobacktest: the event-driven simulation engine

A shallow embedding of `backtest.go` (`Test.Run`, `Test.nextEvent`,
`Test.eventLoop`).  The five handlers of a `Test` are Go interface values
whose implementations live outside the engine; they are embedded as
history-dependent oracles: every handler call that returns a value is a
function of the record of all calls made so far (and of its argument), so
any stateful, mutually aliasing handler implementation is covered.  The
engine appends every handler call it makes, together with the value the
handler returned, to that record.
-/

namespace Gobacktest

/-- Modelled from the spec: the declarations of package `internal` (the event
interfaces `DataEvent`, `SignalEvent`, `OrderEvent`, `FillEvent`, the
transaction type, the cash amount and Go's `error`) are not among the
sources; their payloads are left abstract. -/
structure Types where
  DataEvent : Type
  SignalEvent : Type
  OrderEvent : Type
  FillEvent : Type
  Transaction : Type
  Cash : Type
  Err : Type

/-- Modelled from the spec: `internal.Event`, "polymorphic over four
variants"; these are the four cases of the type switch in `eventLoop`.  A
nil interface value, or a value of a fifth type, which the switch would pass
over, is not an `Event` here. -/
inductive Event (τ : Types) where
  | data (d : τ.DataEvent)
  | signal (s : τ.SignalEvent)
  | order (o : τ.OrderEvent)
  | fill (f : τ.FillEvent)

/-- One entry of the call record: a handler method the engine invoked, with
its arguments and, where the method returns something, the returned value.
`dispatch e` marks the entry into `eventLoop e`. -/
inductive Call (τ : Types) where
  /-- The call `t.data.Stream()` (its length is only logged). -/
  | stream
  /-- The call `t.portfolio.InitialCash()` and the amount returned. -/
  | initialCash (c : τ.Cash)
  /-- The call `t.portfolio.SetCash(c)`. -/
  | setCash (c : τ.Cash)
  /-- The call `t.data.Next()`; `none` is `ok = false`. -/
  | next (r : Option τ.DataEvent)
  /-- Entry into `t.eventLoop(e)`. -/
  | dispatch (e : Event τ)
  /-- The call `t.portfolio.Update(d)`. -/
  | portfolioUpdate (d : τ.DataEvent)
  /-- The call `t.statistic.Update(d, t.portfolio)`. -/
  | statisticUpdate (d : τ.DataEvent)
  /-- The call `t.strategy.CalculateSignal(d, t.data, t.portfolio)`. -/
  | calculateSignal (d : τ.DataEvent) (r : Except τ.Err τ.SignalEvent)
  /-- The call `t.portfolio.OnSignal(s, t.data)`. -/
  | onSignal (s : τ.SignalEvent) (r : Except τ.Err τ.OrderEvent)
  /-- The call `t.exchange.ExecuteOrder(o, t.data)`. -/
  | executeOrder (o : τ.OrderEvent) (r : Except τ.Err τ.FillEvent)
  /-- The call `t.portfolio.OnFill(f, t.data)`. -/
  | onFill (f : τ.FillEvent) (r : Except τ.Err τ.Transaction)
  /-- The call `t.statistic.TrackTransaction(x)`. -/
  | trackTransaction (x : τ.Transaction)
  /-- The call `t.statistic.TrackEvent(e)`. -/
  | trackEvent (e : Event τ)
  /-- The call `t.statistic.PrintResult()`. -/
  | printResult

/-- The value-returning methods of the handlers wired into a `Test`
(`data`, `strategy`, `portfolio`, `exchange`).  Each takes the record of all
calls made so far; a Go result pair `(v, err)` is `Except.ok v` when
`err == nil` and `Except.error err` otherwise (the engine never reads `v`
in that case). -/
structure Handlers (τ : Types) where
  initialCash : List (Call τ) → τ.Cash
  next : List (Call τ) → Option τ.DataEvent
  calculateSignal : List (Call τ) → τ.DataEvent → Except τ.Err τ.SignalEvent
  onSignal : List (Call τ) → τ.SignalEvent → Except τ.Err τ.OrderEvent
  executeOrder : List (Call τ) → τ.OrderEvent → Except τ.Err τ.FillEvent
  onFill : List (Call τ) → τ.FillEvent → Except τ.Err τ.Transaction

/-- The mutable part of `Test`: the event queue, and the call record. -/
structure Test (τ : Types) where
  eventQueue : List (Event τ)
  trace : List (Call τ)

variable {τ : Types}

/-- Record one handler call. -/
def Test.log (t : Test τ) (c : Call τ) : Test τ :=
  ⟨t.eventQueue, t.trace ++ [c]⟩

/-- Go: `t.eventQueue = append(t.eventQueue, e)`. -/
def Test.enqueue (t : Test τ) (e : Event τ) : Test τ :=
  ⟨t.eventQueue ++ [e], t.trace⟩

/-- Go: `Test.nextEvent`.  `none` is `ok = false`. -/
def nextEvent (t : Test τ) : Option (Event τ) × Test τ :=
  match t.eventQueue with
  | [] => (none, t)
  | event :: rest => (some event, ⟨rest, t.trace⟩)

/-- Go: `Test.eventLoop`.  The first component is the returned `error`
(`none` is `nil`). -/
def eventLoop (h : Handlers τ) (e : Event τ) (t : Test τ) : Option τ.Err × Test τ :=
  let t := t.log (.dispatch e)
  match e with
  | .data event =>
    let t := t.log (.portfolioUpdate event)
    let t := t.log (.statisticUpdate event)
    let r := h.calculateSignal t.trace event
    let t := t.log (.calculateSignal event r)
    match r with
    | .error _ => (none, t)
    | .ok signal => (none, t.enqueue (.signal signal))
  | .signal event =>
    let r := h.onSignal t.trace event
    let t := t.log (.onSignal event r)
    match r with
    | .error _ => (none, t)
    | .ok order => (none, t.enqueue (.order order))
  | .order event =>
    let r := h.executeOrder t.trace event
    let t := t.log (.executeOrder event r)
    match r with
    | .error _ => (none, t)
    | .ok fill => (none, t.enqueue (.fill fill))
  | .fill event =>
    let r := h.onFill t.trace event
    let t := t.log (.onFill event r)
    match r with
    | .error _ => (none, t)
    | .ok transaction => (none, t.log (.trackTransaction transaction))

/-- What one pass through the body of the `for` loop of `Run` does. -/
inductive Step (τ : Types) where
  /-- The loop goes on to its next iteration (`continue`, or the end of the body). -/
  | continue (t : Test τ)
  /-- The loop was left by `break`. -/
  | break (t : Test τ)
  /-- The function was left by `return err`. -/
  | fail (err : τ.Err) (t : Test τ)

/-- One iteration of the `for` loop of `Run`: the post statement / init
statement `t.nextEvent()` followed by the loop body. -/
def iteration (h : Handlers τ) (t : Test τ) : Step τ :=
  match nextEvent t with
  | (none, t) =>
    let r := h.next t.trace
    let t := t.log (.next r)
    match r with
    | none => .break t
    | some data => .continue (t.enqueue (.data data))
  | (some event, t) =>
    match eventLoop h event t with
    | (some err, t) => .fail err t
    | (none, t) => .continue (t.log (.trackEvent event))

/-- The `for` loop of `Run`, run for at most `fuel` iterations;
`Step.continue t` says the loop is still running, in state `t`. -/
def runLoop (h : Handlers τ) : Nat → Test τ → Step τ
  | 0, t => .continue t
  | fuel + 1, t =>
    match iteration h t with
    | .continue t => runLoop h fuel t
    | .break t => .break t
    | .fail err t => .fail err t

/-- Outcome of `Run` within a bound on the number of loop iterations. -/
inductive RunResult (τ : Types) where
  /-- The loop is still running. -/
  | running (t : Test τ)
  /-- The function returned `err` (`none` is `nil`). -/
  | returned (err : Option τ.Err) (t : Test τ)

/-- The state of the `Test` in a run outcome. -/
def RunResult.test : RunResult τ → Test τ
  | .running t => t
  | .returned _ t => t

/-- The state of a `Test` with event queue `q` when the `for` loop of `Run`
is entered: `Stream()` was counted and the cash was set. -/
def setup (h : Handlers τ) (q : List (Event τ)) : Test τ :=
  let t : Test τ := ⟨q, []⟩
  let t := t.log .stream
  let c := h.initialCash t.trace
  let t := t.log (.initialCash c)
  t.log (.setCash c)

/-- Go: `Test.Run`, on a `Test` whose event queue is `q`, with at most
`fuel` loop iterations. -/
def Run (h : Handlers τ) (q : List (Event τ)) (fuel : Nat) : RunResult τ :=
  match runLoop h fuel (setup h q) with
  | .continue t => .running t
  | .fail err t => .returned (some err) t
  | .break t => .returned none (t.log .printResult)

/-! ## Observations on the call record -/

/-- The state of the `Test` after a loop step. -/
def Step.test : Step τ → Test τ
  | .continue t => t
  | .break t => t
  | .fail _ t => t

/-- The argument of a `statistic.TrackEvent` call. -/
def Call.trackedEvent : Call τ → Option (Event τ)
  | .trackEvent e => some e
  | _ => none

/-- The argument of an entry into `eventLoop`. -/
def Call.dispatchedEvent : Call τ → Option (Event τ)
  | .dispatch e => some e
  | _ => none

/-- The event the engine appends to the queue on this call: the bar a
`Next` call yielded (line 75), or the successor a stage handler returned
without an error (lines 122, 129, 136). -/
def Call.enqueuedEvent : Call τ → Option (Event τ)
  | .next (some d) => some (.data d)
  | .calculateSignal _ (.ok s) => some (.signal s)
  | .onSignal _ (.ok o) => some (.order o)
  | .executeOrder _ (.ok f) => some (.fill f)
  | _ => none

/-- Is this a call of `data.Next`? -/
def Call.isNext : Call τ → Bool
  | .next _ => true
  | _ => false

/-- Is this a call of `statistic.PrintResult`? -/
def Call.isPrintResult : Call τ → Bool
  | .printResult => true
  | _ => false

/-- Is this a call of `statistic.TrackTransaction`? -/
def Call.isTrackTransaction : Call τ → Bool
  | .trackTransaction _ => true
  | _ => false

/-- Is this an entry into `eventLoop` or a call of `statistic.TrackEvent`? -/
def Call.isDispatchOrTrack : Call τ → Bool
  | .dispatch _ => true
  | .trackEvent _ => true
  | _ => false

/-- Is this event a `DataEvent`? -/
def Event.isData : Event τ → Bool
  | .data _ => true
  | _ => false

/-- The events passed to `statistic.TrackEvent`, in call order. -/
def tracked (tr : List (Call τ)) : List (Event τ) :=
  tr.filterMap Call.trackedEvent

/-- The events passed to `eventLoop`, in call order. -/
def dispatched (tr : List (Call τ)) : List (Event τ) :=
  tr.filterMap Call.dispatchedEvent

/-- The events appended to the queue, in the order they were appended. -/
def enqueued (tr : List (Call τ)) : List (Event τ) :=
  tr.filterMap Call.enqueuedEvent

/-- The number of calls of `data.Next`. -/
def nextCalls (tr : List (Call τ)) : Nat :=
  tr.countP Call.isNext

/-- The number of calls of `statistic.PrintResult`. -/
def printCalls (tr : List (Call τ)) : Nat :=
  tr.countP Call.isPrintResult

/-- The data provider is a cursor over the bars `bars`: its k-th `Next`
yields the k-th bar, and reports exhaustion once all bars were yielded. -/
def YieldsBars (h : Handlers τ) (bars : List τ.DataEvent) : Prop :=
  ∀ tr, h.next tr = bars[nextCalls tr]?

/-- The calls the engine makes from pulling the bar `d` to tracking its
fill, when the chain of `d` runs through all four stages: `s`, `o`, `f`
and `x` are what `CalculateSignal`, `OnSignal`, `ExecuteOrder` and `OnFill`
returned. -/
def barTrace (d : τ.DataEvent) (s : τ.SignalEvent) (o : τ.OrderEvent)
    (f : τ.FillEvent) (x : τ.Transaction) : List (Call τ) :=
  [.next (some d),
   .dispatch (.data d), .portfolioUpdate d, .statisticUpdate d,
   .calculateSignal d (.ok s), .trackEvent (.data d),
   .dispatch (.signal s), .onSignal s (.ok o), .trackEvent (.signal s),
   .dispatch (.order o), .executeOrder o (.ok f), .trackEvent (.order o),
   .dispatch (.fill f), .onFill f (.ok x), .trackTransaction x, .trackEvent (.fill f)]

/-- The chain of one bar: the bar with the signal, order, fill and
transaction the handlers returned for it. -/
structure Chain (τ : Types) where
  bar : τ.DataEvent
  signal : τ.SignalEvent
  order : τ.OrderEvent
  fill : τ.FillEvent
  transaction : τ.Transaction

/-- The call record of one full chain. -/
def Chain.calls (c : Chain τ) : List (Call τ) :=
  barTrace c.bar c.signal c.order c.fill c.transaction

/-- The four events of one full chain, in causal order. -/
def Chain.events (c : Chain τ) : List (Event τ) :=
  [.data c.bar, .signal c.signal, .order c.order, .fill c.fill]

/-- The number of stages an event still has before it: a bound on the
number of dispatches its chain can still cause. -/
def Event.rank : Event τ → Nat
  | .data _ => 4
  | .signal _ => 3
  | .order _ => 2
  | .fill _ => 1

/-- What a dispatch of an event adds after its `dispatch` mark: the handler
calls made (with the values returned), and the events appended to the
queue.  One constructor per stage and handler outcome. -/
inductive Stage : Event τ → List (Call τ) → List (Event τ) → Prop
  | dataOk (d : τ.DataEvent) (s : τ.SignalEvent) :
      Stage (.data d)
        [.portfolioUpdate d, .statisticUpdate d, .calculateSignal d (.ok s)] [.signal s]
  | dataErr (d : τ.DataEvent) (err : τ.Err) :
      Stage (.data d)
        [.portfolioUpdate d, .statisticUpdate d, .calculateSignal d (.error err)] []
  | signalOk (s : τ.SignalEvent) (o : τ.OrderEvent) :
      Stage (.signal s) [.onSignal s (.ok o)] [.order o]
  | signalErr (s : τ.SignalEvent) (err : τ.Err) :
      Stage (.signal s) [.onSignal s (.error err)] []
  | orderOk (o : τ.OrderEvent) (f : τ.FillEvent) :
      Stage (.order o) [.executeOrder o (.ok f)] [.fill f]
  | orderErr (o : τ.OrderEvent) (err : τ.Err) :
      Stage (.order o) [.executeOrder o (.error err)] []
  | fillOk (f : τ.FillEvent) (x : τ.Transaction) :
      Stage (.fill f) [.onFill f (.ok x), .trackTransaction x] []
  | fillErr (f : τ.FillEvent) (err : τ.Err) :
      Stage (.fill f) [.onFill f (.error err)] []

/-- A bound on the number of loop iterations still to come, for a data
provider that is a cursor over `bars`: five for every `Next` call still to
be made (the pull and at most four dispatches), and the stages of the queued
events. -/
def measure (bars : List τ.DataEvent) (t : Test τ) : Nat :=
  5 * (bars.length + 1 - nextCalls t.trace) + (t.eventQueue.map Event.rank).sum

/-- The calls the engine makes from pulling the bar `d` to tracking it, when
`CalculateSignal` returned the error `err` for it. -/
def skippedBar (err : τ.Err) (d : τ.DataEvent) : List (Call τ) :=
  [.next (some d),
   .dispatch (.data d), .portfolioUpdate d, .statisticUpdate d,
   .calculateSignal d (.error err), .trackEvent (.data d)]

/-- The record of one dispatched event that was then tracked. -/
def dispatchThenTrack (e : Event τ) : List (Call τ) :=
  [.dispatch e, .trackEvent e]

/-- Is this a call of `portfolio.Update` or of `statistic.Update`? -/
def Call.isUpdate : Call τ → Bool
  | .portfolioUpdate _ => true
  | .statisticUpdate _ => true
  | _ => false

/-- Is this a call of `portfolio.SetCash`? -/
def Call.isSetCash : Call τ → Bool
  | .setCash _ => true
  | _ => false

/-- Is this one of the calls `Run` makes before its loop: `data.Stream`,
`portfolio.InitialCash`, `portfolio.SetCash`? -/
def Call.isSetup : Call τ → Bool
  | .stream => true
  | .initialCash _ => true
  | .setCash _ => true
  | _ => false

/-- The calls from pulling the bar `d` to tracking it; `r` is what
`CalculateSignal` returned for it. -/
def dataCalls (d : τ.DataEvent) (r : Except τ.Err τ.SignalEvent) : List (Call τ) :=
  [.next (some d), .dispatch (.data d), .portfolioUpdate d, .statisticUpdate d,
   .calculateSignal d r, .trackEvent (.data d)]

/-- The calls of the dispatch of the signal `s`, up to tracking it; `r` is
what `OnSignal` returned for it. -/
def signalCalls (s : τ.SignalEvent) (r : Except τ.Err τ.OrderEvent) : List (Call τ) :=
  [.dispatch (.signal s), .onSignal s r, .trackEvent (.signal s)]

/-- The calls of the dispatch of the order `o`, up to tracking it; `r` is
what `ExecuteOrder` returned for it. -/
def orderCalls (o : τ.OrderEvent) (r : Except τ.Err τ.FillEvent) : List (Call τ) :=
  [.dispatch (.order o), .executeOrder o r, .trackEvent (.order o)]

/-- The calls of the dispatch of the fill `f`, up to tracking it; `r` is
what `OnFill` returned for it. -/
def fillCalls (f : τ.FillEvent) (r : Except τ.Err τ.Transaction) : List (Call τ) :=
  match r with
  | .error err => [.dispatch (.fill f), .onFill f (.error err), .trackEvent (.fill f)]
  | .ok x => [.dispatch (.fill f), .onFill f (.ok x), .trackTransaction x,
      .trackEvent (.fill f)]

/-- The finished course of one bar through the stages: the chain of the bar
is cut at the first stage whose handler returned an error. -/
inductive BarRun (τ : Types) where
  /-- `CalculateSignal` returned the error `err`. -/
  | noSignal (d : τ.DataEvent) (err : τ.Err)
  /-- `OnSignal` returned the error `err`. -/
  | noOrder (d : τ.DataEvent) (s : τ.SignalEvent) (err : τ.Err)
  /-- `ExecuteOrder` returned the error `err`. -/
  | noFill (d : τ.DataEvent) (s : τ.SignalEvent) (o : τ.OrderEvent) (err : τ.Err)
  /-- The chain reached its fill, for which `OnFill` returned `r`. -/
  | filled (d : τ.DataEvent) (s : τ.SignalEvent) (o : τ.OrderEvent) (f : τ.FillEvent)
      (r : Except τ.Err τ.Transaction)

/-- The bar of a course. -/
def BarRun.bar : BarRun τ → τ.DataEvent
  | .noSignal d _ => d
  | .noOrder d _ _ => d
  | .noFill d _ _ _ => d
  | .filled d _ _ _ _ => d

/-- The events of a course, in causal order: a non-empty beginning of
Data, Signal, Order, Fill. -/
def BarRun.events : BarRun τ → List (Event τ)
  | .noSignal d _ => [.data d]
  | .noOrder d s _ => [.data d, .signal s]
  | .noFill d s o _ => [.data d, .signal s, .order o]
  | .filled d s o f _ => [.data d, .signal s, .order o, .fill f]

/-- The call record of a course. -/
def BarRun.calls : BarRun τ → List (Call τ)
  | .noSignal d err => dataCalls d (.error err)
  | .noOrder d s err => dataCalls d (.ok s) ++ signalCalls s (.error err)
  | .noFill d s o err =>
      dataCalls d (.ok s) ++ signalCalls s (.ok o) ++ orderCalls o (.error err)
  | .filled d s o f r =>
      dataCalls d (.ok s) ++ signalCalls s (.ok o) ++ orderCalls o (.ok f) ++ fillCalls f r

/-- The course of the bar in progress at an iteration boundary: the queue,
and the calls made for the bar so far. -/
inductive Pending : List (Event τ) → List (Call τ) → Prop
  /-- No bar is in progress. -/
  | idle : Pending [] []
  /-- The bar was pulled and waits for its dispatch. -/
  | pulled (d : τ.DataEvent) : Pending [.data d] [.next (some d)]
  /-- The signal of the bar waits for its dispatch. -/
  | signalled (d : τ.DataEvent) (s : τ.SignalEvent) :
      Pending [.signal s] (dataCalls d (.ok s))
  /-- The order of the bar waits for its dispatch. -/
  | ordered (d : τ.DataEvent) (s : τ.SignalEvent) (o : τ.OrderEvent) :
      Pending [.order o] (dataCalls d (.ok s) ++ signalCalls s (.ok o))
  /-- The fill of the bar waits for its dispatch. -/
  | executed (d : τ.DataEvent) (s : τ.SignalEvent) (o : τ.OrderEvent) (f : τ.FillEvent) :
      Pending [.fill f]
        (dataCalls d (.ok s) ++ signalCalls s (.ok o) ++ orderCalls o (.ok f))

/-- The event `e` was produced in the call record `tr` by the handler of the
stage before it: a Data event was returned by `Next`, a Signal by
`CalculateSignal` in the dispatch of a Data event, an Order by `OnSignal` in
the dispatch of a Signal, a Fill by `ExecuteOrder` in the dispatch of an
Order. -/
def Produced (tr : List (Call τ)) : Event τ → Prop
  | .data d => ∃ pre post, tr = pre ++ [.next (some d)] ++ post
  | .signal s => ∃ pre post d, tr = pre ++ [.dispatch (.data d), .portfolioUpdate d,
      .statisticUpdate d, .calculateSignal d (.ok s)] ++ post
  | .order o => ∃ pre post s, tr = pre ++ [.dispatch (.signal s), .onSignal s (.ok o)] ++ post
  | .fill f => ∃ pre post o,
      tr = pre ++ [.dispatch (.order o), .executeOrder o (.ok f)] ++ post

/-- The state of a run started on an empty queue at an iteration boundary:
the calls of `setup`, the finished courses of the bars before, and the bar in
progress. -/
def Coursed (h : Handlers τ) (t : Test τ) : Prop :=
  ∃ (segs : List (BarRun τ)) (pend : List (Call τ)), Pending t.eventQueue pend ∧
    t.trace = (setup h []).trace ++ segs.flatMap BarRun.calls ++ pend

/-- The state of a run started on an empty queue when its loop was left: the
calls of `setup`, the finished courses of all bars, and the last `Next`. -/
def Finished (h : Handlers τ) (t : Test τ) : Prop :=
  ∃ segs : List (BarRun τ), t.eventQueue = [] ∧
    t.trace = (setup h []).trace ++ segs.flatMap BarRun.calls ++ [.next none]

/-- The bar a `Next` call yielded. -/
def Call.pulledBar : Call τ → Option τ.DataEvent
  | .next (some d) => some d
  | _ => none

/-- The bars the `Next` calls yielded, in call order. -/
def pulled (tr : List (Call τ)) : List τ.DataEvent :=
  tr.filterMap Call.pulledBar

/-! ## A concrete instance -/

/-- Payloads for the examples: every event is a number, an error a string. -/
@[reducible]
def exTypes : Types := ⟨Nat, Nat, Nat, Nat, Nat, Nat, String⟩

/-- Handlers over the bars `bars` whose stages all succeed: the signal of
bar `d` is `d + 1`, its order `d + 2`, its fill `d + 3`. -/
def okHandlers (bars : List Nat) : Handlers exTypes where
  initialCash := fun _ => (10000 : Nat)
  next := fun tr => bars[nextCalls tr]?
  calculateSignal := fun _ (d : Nat) => .ok (d + 1 : Nat)
  onSignal := fun _ (s : Nat) => .ok (s + 1 : Nat)
  executeOrder := fun _ (o : Nat) => .ok (o + 1 : Nat)
  onFill := fun _ (f : Nat) => .ok (f + 1 : Nat)

/-- Handlers over the bars `bars` whose strategy always fails. -/
def failingStrategy (bars : List Nat) : Handlers exTypes where
  initialCash := fun _ => (10000 : Nat)
  next := fun tr => bars[nextCalls tr]?
  calculateSignal := fun _ _ => .error "no signal"
  onSignal := fun _ (s : Nat) => .ok (s + 1 : Nat)
  executeOrder := fun _ (o : Nat) => .ok (o + 1 : Nat)
  onFill := fun _ (f : Nat) => .ok (f + 1 : Nat)

/-! ## The strategy tree -/

/-- Modelled from the spec: `AlgoStack` of package `backtest` (its source
file is not among the sources): the ordered sequence of algos of a strategy;
the algo type is left abstract. -/
structure AlgoStack (α : Type) where
  stack : List α

/-- Modelled from the spec: `Asset`, a leaf of the tree: a `Node` with a name
and a root flag; "only composite members (Strategy) have non-empty
children", so a leaf carries no child list. -/
structure Asset where
  name : String
  root : Bool

mutual
/-- Modelled from the spec: `Strategy`, the composite of the tree: its `Node`
(name, root flag, ordered children), its `AlgoStack`, and the two shared
references `data` and `portfolio` (`none` is nil); in the order of the fields
of the struct literals of `strategy_test.go`. -/
inductive Strategy (α δ ρ : Type) where
  | mk (name : String) (root : Bool) (children : List (NodeHandler α δ ρ))
      (algos : AlgoStack α) (data : Option δ) (portfolio : Option ρ)
/-- Modelled from the spec: `NodeHandler`, a tree member: "a closed variant
type {Strategy, Asset}". -/
inductive NodeHandler (α δ ρ : Type) where
  | strategy (s : Strategy α δ ρ)
  | asset (a : Asset)
end

variable {α δ ρ : Type}

/-- The name of the node of a strategy. -/
def Strategy.name : Strategy α δ ρ → String
  | .mk n _ _ _ _ _ => n

/-- The root flag of the node of a strategy. -/
def Strategy.root : Strategy α δ ρ → Bool
  | .mk _ r _ _ _ _ => r

/-- The children of the node of a strategy, in insertion order. -/
def Strategy.children : Strategy α δ ρ → List (NodeHandler α δ ρ)
  | .mk _ _ cs _ _ _ => cs

/-- The algo stack of a strategy. -/
def Strategy.algos : Strategy α δ ρ → AlgoStack α
  | .mk _ _ _ a _ _ => a

/-- The data reference of a strategy. -/
def Strategy.data : Strategy α δ ρ → Option δ
  | .mk _ _ _ _ d _ => d

/-- The portfolio reference of a strategy. -/
def Strategy.portfolio : Strategy α δ ρ → Option ρ
  | .mk _ _ _ _ _ p => p

/-- The strategies among a list of tree members, collected in order; the
assets are skipped. -/
def collectStrategies : List (NodeHandler α δ ρ) → List (Strategy α δ ρ)
  | [] => []
  | .strategy s :: cs => s :: collectStrategies cs
  | .asset _ :: cs => collectStrategies cs

/-- The assets among a list of tree members, collected in order; the
strategies are skipped. -/
def collectAssets : List (NodeHandler α δ ρ) → List Asset
  | [] => []
  | .strategy _ :: cs => collectAssets cs
  | .asset a :: cs => a :: collectAssets cs

/-- Modelled from the spec: the method `Strategy.Strategies` (package
`backtest`, source file not among the sources): "returns direct children that
are themselves Strategy composites, in insertion order, skipping Asset
children; found=false and an empty/absent result when no such children
exist".  The third component is the receiver after the call ("side effects:
none"). -/
def Strategy.Strategies (s : Strategy α δ ρ) :
    List (Strategy α δ ρ) × Bool × Strategy α δ ρ :=
  match collectStrategies s.children with
  | [] => ([], false, s)
  | c :: cs => (c :: cs, true, s)

/-- Modelled from the spec: the method `Strategy.Assets` (package `backtest`,
source file not among the sources): "returns direct children that are Asset
leaves, in insertion order; same found=false convention when none exist".
The third component is the receiver after the call. -/
def Strategy.Assets (s : Strategy α δ ρ) : List Asset × Bool × Strategy α δ ρ :=
  match collectAssets s.children with
  | [] => ([], false, s)
  | a :: as => (a :: as, true, s)

mutual
/-- The tree of a strategy after `SetData(d)`: "sets this Strategy's data
reference to d, then recursively applies the same call to every direct child
that is a Strategy (not to Asset children)". -/
def Strategy.withData (d : Option δ) : Strategy α δ ρ → Strategy α δ ρ
  | .mk n r cs a _ p => .mk n r (withDataChildren d cs) a d p
/-- The children of a strategy after `SetData(d)`. -/
def withDataChildren (d : Option δ) : List (NodeHandler α δ ρ) → List (NodeHandler α δ ρ)
  | [] => []
  | .strategy s :: cs => .strategy (s.withData d) :: withDataChildren d cs
  | .asset a :: cs => .asset a :: withDataChildren d cs
end

mutual
/-- The tree of a strategy after `SetPortfolio(p)`: the same propagation
rule as for `SetData`, for the portfolio reference. -/
def Strategy.withPortfolio (p : Option ρ) : Strategy α δ ρ → Strategy α δ ρ
  | .mk n r cs a d _ => .mk n r (withPortfolioChildren p cs) a d p
/-- The children of a strategy after `SetPortfolio(p)`. -/
def withPortfolioChildren (p : Option ρ) :
    List (NodeHandler α δ ρ) → List (NodeHandler α δ ρ)
  | [] => []
  | .strategy s :: cs => .strategy (s.withPortfolio p) :: withPortfolioChildren p cs
  | .asset a :: cs => .asset a :: withPortfolioChildren p cs
end

/-- Modelled from the spec: the method `Strategy.SetData` (package
`backtest`, source file not among the sources): the receiver after the call,
and the returned `error` (`none` is nil): "must return nil error on success
... always succeeds". -/
def Strategy.SetData (s : Strategy α δ ρ) (d : Option δ) : Strategy α δ ρ × Option String :=
  (s.withData d, none)

/-- Modelled from the spec: the method `Strategy.SetPortfolio` (package
`backtest`, source file not among the sources): the receiver after the call,
and the returned `error`. -/
def Strategy.SetPortfolio (s : Strategy α δ ρ) (p : Option ρ) :
    Strategy α δ ρ × Option String :=
  (s.withPortfolio p, none)

/-- Append one algo to the stack of a strategy. -/
def Strategy.pushAlgo : Strategy α δ ρ → α → Strategy α δ ρ
  | .mk n r cs a d p, x => .mk n r cs ⟨a.stack ++ [x]⟩ d p

/-- Modelled from the spec: the method `Strategy.SetAlgo` (package
`backtest`, source file not among the sources): "appends each given Algo, in
argument order, to this Strategy's AlgoStack; returns the same Strategy ...;
does not propagate to children".  The result is the receiver after the call,
which is also the returned strategy. -/
def Strategy.SetAlgo (s : Strategy α δ ρ) (algos : List α) : Strategy α δ ρ :=
  algos.foldl Strategy.pushAlgo s

mutual
/-- The strategies of a tree, the root first: the strategy itself and its
strategy descendants at any depth. -/
def Strategy.subStrategies : Strategy α δ ρ → List (Strategy α δ ρ)
  | .mk n r cs a d p => .mk n r cs a d p :: subStrategiesOf cs
/-- The strategies of a list of trees. -/
def subStrategiesOf : List (NodeHandler α δ ρ) → List (Strategy α δ ρ)
  | [] => []
  | .strategy s :: cs => s.subStrategies ++ subStrategiesOf cs
  | .asset _ :: cs => subStrategiesOf cs
end

mutual
/-- A tree with every data reference cleared: what a tree is apart from its
data references. -/
def Strategy.eraseData : Strategy α δ ρ → Strategy α δ ρ
  | .mk n r cs a _ p => .mk n r (eraseDataChildren cs) a none p
/-- A list of trees with every data reference cleared. -/
def eraseDataChildren : List (NodeHandler α δ ρ) → List (NodeHandler α δ ρ)
  | [] => []
  | .strategy s :: cs => .strategy s.eraseData :: eraseDataChildren cs
  | .asset a :: cs => .asset a :: eraseDataChildren cs
end

mutual
/-- A tree with every portfolio reference cleared: what a tree is apart from
its portfolio references. -/
def Strategy.erasePortfolio : Strategy α δ ρ → Strategy α δ ρ
  | .mk n r cs a d _ => .mk n r (erasePortfolioChildren cs) a d none
/-- A list of trees with every portfolio reference cleared. -/
def erasePortfolioChildren : List (NodeHandler α δ ρ) → List (NodeHandler α δ ρ)
  | [] => []
  | .strategy s :: cs => .strategy s.erasePortfolio :: erasePortfolioChildren cs
  | .asset a :: cs => .asset a :: erasePortfolioChildren cs
end

/-- Is this tree member a strategy? -/
def NodeHandler.isStrategy : NodeHandler α δ ρ → Bool
  | .strategy _ => true
  | .asset _ => false

/-! ## The dispatch step and one loop iteration -/

theorem eventLoop_fst (h : Handlers τ) (e : Event τ) (t : Test τ) :
    (eventLoop h e t).1 = none := by
  cases e <;> simp only [eventLoop] <;> split <;> rfl

theorem eventLoop_stage (h : Handlers τ) (e : Event τ) (t : Test τ) :
    ∃ calls succ, Stage e calls succ ∧
      eventLoop h e t = (none, ⟨t.eventQueue ++ succ, t.trace ++ .dispatch e :: calls⟩) := by
  cases e with
  | data d =>
    cases hr : h.calculateSignal
        (t.trace ++ [.dispatch (.data d), .portfolioUpdate d, .statisticUpdate d]) d with
    | error err =>
      exact ⟨_, _, Stage.dataErr d err, by simp [eventLoop, Test.log, hr]⟩
    | ok s =>
      exact ⟨_, _, Stage.dataOk d s, by simp [eventLoop, Test.log, Test.enqueue, hr]⟩
  | signal s =>
    cases hr : h.onSignal (t.trace ++ [.dispatch (.signal s)]) s with
    | error err =>
      exact ⟨_, _, Stage.signalErr s err, by simp [eventLoop, Test.log, hr]⟩
    | ok o =>
      exact ⟨_, _, Stage.signalOk s o, by simp [eventLoop, Test.log, Test.enqueue, hr]⟩
  | order o =>
    cases hr : h.executeOrder (t.trace ++ [.dispatch (.order o)]) o with
    | error err =>
      exact ⟨_, _, Stage.orderErr o err, by simp [eventLoop, Test.log, hr]⟩
    | ok f =>
      exact ⟨_, _, Stage.orderOk o f, by simp [eventLoop, Test.log, Test.enqueue, hr]⟩
  | fill f =>
    cases hr : h.onFill (t.trace ++ [.dispatch (.fill f)]) f with
    | error err =>
      exact ⟨_, _, Stage.fillErr f err, by simp [eventLoop, Test.log, hr]⟩
    | ok x =>
      exact ⟨_, _, Stage.fillOk f x, by simp [eventLoop, Test.log, hr]⟩

theorem eventLoop_data_error (h : Handlers τ) (d : τ.DataEvent) (t : Test τ) (err : τ.Err)
    (hr : h.calculateSignal
      (t.trace ++ [.dispatch (.data d), .portfolioUpdate d, .statisticUpdate d]) d =
        .error err) :
    eventLoop h (.data d) t =
      (none, ⟨t.eventQueue, t.trace ++ [.dispatch (.data d), .portfolioUpdate d,
        .statisticUpdate d, .calculateSignal d (.error err)]⟩) := by
  simp [eventLoop, Test.log, hr]

theorem iteration_empty_none (h : Handlers τ) (t : Test τ)
    (hq : t.eventQueue = []) (hn : h.next t.trace = none) :
    iteration h t = .break ⟨[], t.trace ++ [.next none]⟩ := by
  cases t with
  | mk q tr =>
    simp only at hq hn
    subst hq
    simp [iteration, nextEvent, Test.log, hn]

theorem iteration_empty_some (h : Handlers τ) (t : Test τ) (d : τ.DataEvent)
    (hq : t.eventQueue = []) (hn : h.next t.trace = some d) :
    iteration h t = .continue ⟨[.data d], t.trace ++ [.next (some d)]⟩ := by
  cases t with
  | mk q tr =>
    simp only at hq hn
    subst hq
    simp [iteration, nextEvent, Test.log, Test.enqueue, hn]

theorem iteration_cons (h : Handlers τ) (t : Test τ) (e : Event τ) (q : List (Event τ))
    (hq : t.eventQueue = e :: q) :
    iteration h t = .continue ((eventLoop h e ⟨q, t.trace⟩).2.log (.trackEvent e)) := by
  cases t with
  | mk q0 tr =>
    simp only at hq
    subst hq
    have h1 := eventLoop_fst h e ⟨q, tr⟩
    simp only [iteration, nextEvent]
    split
    · next err t' heq => rw [heq] at h1; cases h1
    · next t' heq => rw [heq]

/-- The three ways an iteration can go. -/
theorem iteration_cases (h : Handlers τ) (t : Test τ) :
    (t.eventQueue = [] ∧ h.next t.trace = none ∧
      iteration h t = .break ⟨[], t.trace ++ [.next none]⟩) ∨
    (∃ d, t.eventQueue = [] ∧ h.next t.trace = some d ∧
      iteration h t = .continue ⟨[.data d], t.trace ++ [.next (some d)]⟩) ∨
    (∃ e q calls succ, t.eventQueue = e :: q ∧ Stage e calls succ ∧
      eventLoop h e ⟨q, t.trace⟩ = (none, ⟨q ++ succ, t.trace ++ .dispatch e :: calls⟩) ∧
      iteration h t =
        .continue ⟨q ++ succ, t.trace ++ .dispatch e :: calls ++ [.trackEvent e]⟩) := by
  cases hq : t.eventQueue with
  | nil =>
    cases hn : h.next t.trace with
    | none => exact Or.inl ⟨rfl, rfl, iteration_empty_none h t hq hn⟩
    | some d => exact Or.inr (Or.inl ⟨d, rfl, rfl, iteration_empty_some h t d hq hn⟩)
  | cons e q =>
    obtain ⟨calls, succ, hst, heq⟩ := eventLoop_stage h e ⟨q, t.trace⟩
    refine Or.inr (Or.inr ⟨e, q, calls, succ, rfl, hst, heq, ?_⟩)
    rw [iteration_cons h t e q hq, heq]
    simp [Test.log]

theorem iteration_ne_fail (h : Handlers τ) (t : Test τ) (err : τ.Err) (t1 : Test τ) :
    iteration h t ≠ .fail err t1 := by
  rcases iteration_cases h t with ⟨_, _, h1⟩ | ⟨d, _, _, h1⟩ | ⟨e, q, calls, succ, _, _, _, h1⟩ <;>
    rw [h1] <;> simp

theorem runLoop_ne_fail (h : Handlers τ) (fuel : Nat) (t : Test τ) (err : τ.Err)
    (t1 : Test τ) : runLoop h fuel t ≠ .fail err t1 := by
  induction fuel generalizing t with
  | zero => simp [runLoop]
  | succ n ih =>
    simp only [runLoop]
    split
    · exact ih _
    · simp
    · next heq => exact absurd heq (iteration_ne_fail h t _ _)

/-- A property of the state that every iteration keeps holds throughout the loop. -/
theorem runLoop_invariant (h : Handlers τ) (P : Test τ → Prop)
    (hstep : ∀ t, P t → P (iteration h t).test) :
    ∀ fuel t, P t → P (runLoop h fuel t).test := by
  intro fuel
  induction fuel with
  | zero => intro t ht; simpa [runLoop, Step.test] using ht
  | succ n ih =>
    intro t ht
    have h1 := hstep t ht
    simp only [runLoop]
    split
    · next t1 heq => rw [heq] at h1; exact ih _ h1
    · next t1 heq => rw [heq] at h1; exact h1
    · next err t1 heq => rw [heq] at h1; exact h1

theorem setup_eq (h : Handlers τ) (q : List (Event τ)) :
    setup h q = ⟨q, [.stream, .initialCash (h.initialCash [.stream]),
      .setCash (h.initialCash [.stream])]⟩ := by
  simp [setup, Test.log]

theorem Run_returned (h : Handlers τ) (q : List (Event τ)) (fuel : Nat)
    (err : Option τ.Err) (t : Test τ) (hr : Run h q fuel = .returned err t) :
    err = none ∧ ∃ t1, runLoop h fuel (setup h q) = .break t1 ∧ t = t1.log .printResult := by
  unfold Run at hr
  split at hr
  · cases hr
  · next e1 t1 heq => exact absurd heq (runLoop_ne_fail h fuel _ e1 t1)
  · next t1 heq =>
    cases hr
    exact ⟨rfl, t1, heq, rfl⟩

theorem Run_test_of_running (h : Handlers τ) (q : List (Event τ)) (fuel : Nat)
    (t : Test τ) (hr : runLoop h fuel (setup h q) = .continue t) :
    Run h q fuel = .running t := by
  simp [Run, hr]

theorem Run_of_break (h : Handlers τ) (q : List (Event τ)) (fuel : Nat)
    (t : Test τ) (hr : runLoop h fuel (setup h q) = .break t) :
    Run h q fuel = .returned none (t.log .printResult) := by
  simp [Run, hr]

theorem iteration_printCalls (h : Handlers τ) (t : Test τ) :
    printCalls (iteration h t).test.trace = printCalls t.trace := by
  rcases iteration_cases h t with ⟨_, _, h1⟩ | ⟨d, _, _, h1⟩ | ⟨e, q, calls, succ, _, hst, _, h1⟩
  · rw [h1]; simp [Step.test, printCalls, Call.isPrintResult]
  · rw [h1]; simp [Step.test, printCalls, Call.isPrintResult]
  · rw [h1]
    cases hst <;> simp [Step.test, printCalls, Call.isPrintResult]

/-! ## Running the loop -/

theorem runLoop_add (h : Handlers τ) (a b : Nat) (t t1 : Test τ)
    (ha : runLoop h a t = .continue t1) : runLoop h (a + b) t = runLoop h b t1 := by
  induction a generalizing t with
  | zero =>
    simp only [runLoop] at ha
    cases ha
    simp
  | succ n ih =>
    rw [Nat.add_right_comm]
    simp only [runLoop] at ha ⊢
    split at ha
    · exact ih _ ha
    · cases ha
    · cases ha

theorem runLoop_break_add (h : Handlers τ) (a b : Nat) (t t1 : Test τ)
    (ha : runLoop h a t = .break t1) : runLoop h (a + b) t = .break t1 := by
  induction a generalizing t with
  | zero => simp [runLoop] at ha
  | succ n ih =>
    rw [Nat.add_right_comm]
    simp only [runLoop] at ha ⊢
    split at ha
    · exact ih _ ha
    · exact ha
    · cases ha

theorem yieldsBars_lt (h : Handlers τ) (bars : List τ.DataEvent) (hb : YieldsBars h bars)
    (tr : List (Call τ)) (d : τ.DataEvent) (hn : h.next tr = some d) :
    nextCalls tr < bars.length := by
  rw [hb tr] at hn
  by_contra hlt
  rw [List.getElem?_eq_none (Nat.le_of_not_lt hlt)] at hn
  cases hn

theorem stage_rank (e : Event τ) (calls : List (Call τ)) (succ : List (Event τ))
    (hst : Stage e calls succ) :
    (succ.map Event.rank).sum < e.rank ∧ nextCalls calls = 0 := by
  cases hst <;> simp [Event.rank, nextCalls, Call.isNext]

theorem iteration_measure (h : Handlers τ) (bars : List τ.DataEvent)
    (hb : YieldsBars h bars) (t t1 : Test τ) (hc : iteration h t = .continue t1) :
    measure bars t1 < measure bars t := by
  rcases iteration_cases h t with ⟨_, _, h1⟩ | ⟨d, hq, hn, h1⟩ |
    ⟨e, q, calls, succ, hq, hst, _, h1⟩
  · rw [h1] at hc; cases hc
  · rw [h1] at hc
    cases hc
    have hlt := yieldsBars_lt h bars hb _ d hn
    simp only [measure, hq, nextCalls, List.countP_append, List.map_cons, List.map_nil,
      List.sum_cons, List.sum_nil, Event.rank] at hlt ⊢
    simp [Call.isNext]
    omega
  · rw [h1] at hc
    cases hc
    obtain ⟨hr, hz⟩ := stage_rank e calls succ hst
    simp only [nextCalls] at hz
    simp only [measure, hq, nextCalls, List.countP_append, List.countP_cons, List.map_cons,
      List.map_append, List.sum_append, List.sum_cons, hz]
    simp [Call.isNext]
    omega

theorem runLoop_breaks (h : Handlers τ) (bars : List τ.DataEvent) (hb : YieldsBars h bars) :
    ∀ n t, measure bars t < n → ∃ t1, runLoop h n t = .break t1 := by
  intro n
  induction n with
  | zero => intro t ht; omega
  | succ n ih =>
    intro t ht
    simp only [runLoop]
    cases hi : iteration h t with
    | «continue» t1 =>
      have := iteration_measure h bars hb t t1 hi
      exact ih t1 (by omega)
    | «break» t1 => exact ⟨t1, rfl⟩
    | fail err t1 => exact absurd hi (iteration_ne_fail h t err t1)

theorem runLoop_full_chain (h : Handlers τ) (t : Test τ) (d : τ.DataEvent)
    (hq : t.eventQueue = []) (hn : h.next t.trace = some d)
    (hS : ∀ tr d err, h.calculateSignal tr d ≠ .error err)
    (hO : ∀ tr s err, h.onSignal tr s ≠ .error err)
    (hE : ∀ tr o err, h.executeOrder tr o ≠ .error err)
    (hF : ∀ tr f err, h.onFill tr f ≠ .error err) :
    ∃ c : Chain τ, c.bar = d ∧ runLoop h 5 t = .continue ⟨[], t.trace ++ c.calls⟩ := by
  cases t with
  | mk q tr =>
    simp only at hq hn
    subst hq
    cases hs : h.calculateSignal (tr ++ [.next (some d), .dispatch (.data d),
        .portfolioUpdate d, .statisticUpdate d]) d with
    | error err => exact absurd hs (hS _ _ _)
    | ok s =>
    cases ho : h.onSignal (tr ++ [.next (some d), .dispatch (.data d),
        .portfolioUpdate d, .statisticUpdate d, .calculateSignal d (.ok s),
        .trackEvent (.data d), .dispatch (.signal s)]) s with
    | error err => exact absurd ho (hO _ _ _)
    | ok o =>
    cases he : h.executeOrder (tr ++ [.next (some d), .dispatch (.data d),
        .portfolioUpdate d, .statisticUpdate d, .calculateSignal d (.ok s),
        .trackEvent (.data d), .dispatch (.signal s), .onSignal s (.ok o),
        .trackEvent (.signal s), .dispatch (.order o)]) o with
    | error err => exact absurd he (hE _ _ _)
    | ok f =>
    cases hf : h.onFill (tr ++ [.next (some d), .dispatch (.data d),
        .portfolioUpdate d, .statisticUpdate d, .calculateSignal d (.ok s),
        .trackEvent (.data d), .dispatch (.signal s), .onSignal s (.ok o),
        .trackEvent (.signal s), .dispatch (.order o), .executeOrder o (.ok f),
        .trackEvent (.order o), .dispatch (.fill f)]) f with
    | error err => exact absurd hf (hF _ _ _)
    | ok x =>
    refine ⟨⟨d, s, o, f, x⟩, rfl, ?_⟩
    simp [runLoop, iteration, nextEvent, eventLoop, Test.log, Test.enqueue, hn, hs, ho, he, hf,
      Chain.calls, barTrace]

theorem runLoop_skipped_bar (h : Handlers τ) (t : Test τ) (d : τ.DataEvent) (err : τ.Err)
    (hq : t.eventQueue = []) (hn : h.next t.trace = some d)
    (hS : ∀ tr d, h.calculateSignal tr d = .error err) :
    runLoop h 2 t = .continue ⟨[], t.trace ++ skippedBar err d⟩ := by
  cases t with
  | mk q tr =>
    simp only at hq hn
    subst hq
    simp [runLoop, iteration, nextEvent, eventLoop, Test.log, Test.enqueue, hn, hS, skippedBar]

theorem nextCalls_chain (c : Chain τ) : nextCalls c.calls = 1 := by
  simp [nextCalls, Chain.calls, barTrace, Call.isNext]

theorem nextCalls_skippedBar (err : τ.Err) (d : τ.DataEvent) :
    nextCalls (skippedBar err d : List (Call τ)) = 1 := by
  simp [nextCalls, skippedBar, Call.isNext]

theorem nextCalls_append (a b : List (Call τ)) :
    nextCalls (a ++ b) = nextCalls a + nextCalls b := by
  simp [nextCalls]

theorem yieldsBars_at (h : Handlers τ) (pre rest : List τ.DataEvent)
    (hb : YieldsBars h (pre ++ rest)) (tr : List (Call τ)) (hk : nextCalls tr = pre.length) :
    h.next tr = rest.head? := by
  rw [hb tr, hk, List.getElem?_append_right (Nat.le_refl _)]
  cases rest <;> simp

theorem runLoop_all_chains (h : Handlers τ)
    (hS : ∀ tr d err, h.calculateSignal tr d ≠ .error err)
    (hO : ∀ tr s err, h.onSignal tr s ≠ .error err)
    (hE : ∀ tr o err, h.executeOrder tr o ≠ .error err)
    (hF : ∀ tr f err, h.onFill tr f ≠ .error err) :
    ∀ (rest pre : List τ.DataEvent) (t : Test τ), t.eventQueue = [] →
      YieldsBars h (pre ++ rest) → nextCalls t.trace = pre.length →
      ∃ chains : List (Chain τ), chains.map Chain.bar = rest ∧
        runLoop h (5 * rest.length + 1) t =
          .break ⟨[], t.trace ++ chains.flatMap Chain.calls ++ [.next none]⟩ := by
  intro rest
  induction rest with
  | nil =>
    intro pre t hq hb hk
    refine ⟨[], rfl, ?_⟩
    have hn := yieldsBars_at h pre [] hb t.trace hk
    simp only [runLoop, List.length_nil, Nat.mul_zero, Nat.zero_add]
    rw [iteration_empty_none h t hq hn]
    simp
  | cons d rest ih =>
    intro pre t hq hb hk
    have hn := yieldsBars_at h pre (d :: rest) hb t.trace hk
    obtain ⟨c, hc, hrun⟩ := runLoop_full_chain h t d hq hn hS hO hE hF
    have hb2 : YieldsBars h ((pre ++ [d]) ++ rest) := by simpa using hb
    obtain ⟨chains, hch, hrest⟩ := ih (pre ++ [d]) ⟨[], t.trace ++ c.calls⟩ rfl hb2
      (by simp [nextCalls_append, nextCalls_chain, hk])
    refine ⟨c :: chains, by simp [hc, hch], ?_⟩
    have hfuel : 5 * (d :: rest).length + 1 = 5 + (5 * rest.length + 1) := by
      simp only [List.length_cons]; omega
    rw [hfuel, runLoop_add h 5 _ t _ hrun, hrest]
    simp

theorem runLoop_all_skipped (h : Handlers τ) (err : τ.Err)
    (hS : ∀ tr d, h.calculateSignal tr d = .error err) :
    ∀ (rest pre : List τ.DataEvent) (t : Test τ), t.eventQueue = [] →
      YieldsBars h (pre ++ rest) → nextCalls t.trace = pre.length →
      runLoop h (2 * rest.length + 1) t =
        .break ⟨[], t.trace ++ rest.flatMap (skippedBar err) ++ [.next none]⟩ := by
  intro rest
  induction rest with
  | nil =>
    intro pre t hq hb hk
    have hn := yieldsBars_at h pre [] hb t.trace hk
    simp only [runLoop, List.length_nil, Nat.mul_zero, Nat.zero_add]
    rw [iteration_empty_none h t hq hn]
    simp
  | cons d rest ih =>
    intro pre t hq hb hk
    have hn := yieldsBars_at h pre (d :: rest) hb t.trace hk
    have hrun := runLoop_skipped_bar h t d err hq hn hS
    have hb2 : YieldsBars h ((pre ++ [d]) ++ rest) := by simpa using hb
    have hrest := ih (pre ++ [d]) ⟨[], t.trace ++ skippedBar err d⟩ rfl hb2
      (by simp [nextCalls_append, nextCalls_skippedBar, hk])
    have hfuel : 2 * (d :: rest).length + 1 = 2 + (2 * rest.length + 1) := by
      simp only [List.length_cons]; omega
    rw [hfuel, runLoop_add h 2 _ t _ hrun, hrest]
    simp

theorem tracked_chains (chains : List (Chain τ)) :
    tracked (chains.flatMap Chain.calls) = chains.flatMap Chain.events := by
  induction chains with
  | nil => rfl
  | cons c cs ih =>
    simp only [List.flatMap_cons, tracked, List.filterMap_append] at ih ⊢
    rw [ih]
    simp [Chain.calls, Chain.events, barTrace, Call.trackedEvent]

theorem tracked_skipped (err : τ.Err) (bars : List τ.DataEvent) :
    tracked (bars.flatMap (skippedBar err)) = bars.map Event.data := by
  induction bars with
  | nil => rfl
  | cons d ds ih =>
    simp only [List.flatMap_cons, tracked, List.filterMap_append, List.map_cons] at ih ⊢
    rw [ih]
    simp [skippedBar, Call.trackedEvent]

theorem nextCalls_skipped (err : τ.Err) (bars : List τ.DataEvent) :
    nextCalls (bars.flatMap (skippedBar err)) = bars.length := by
  induction bars with
  | nil => rfl
  | cons d ds ih =>
    simp only [List.flatMap_cons, nextCalls_append, ih, nextCalls_skippedBar, List.length_cons]
    omega

theorem Run_invariant (h : Handlers τ) (P : Test τ → Prop)
    (hstep : ∀ t, P t → P (iteration h t).test)
    (hprint : ∀ t, P t → P (t.log .printResult))
    (q : List (Event τ)) (hinit : P (setup h q)) (fuel : Nat) :
    P (Run h q fuel).test := by
  have hinv := runLoop_invariant h P hstep fuel (setup h q) hinit
  unfold Run
  split
  · next t1 heq => rw [heq] at hinv; exact hinv
  · next e1 t1 heq => rw [heq] at hinv; exact hinv
  · next t1 heq => rw [heq] at hinv; exact hprint _ hinv

theorem stage_observed (e : Event τ) (calls : List (Call τ)) (succ : List (Event τ))
    (hst : Stage e calls succ) :
    calls.filter Call.isDispatchOrTrack = [] ∧ dispatched calls = [] ∧
      tracked calls = [] ∧ enqueued calls = succ := by
  cases hst <;>
    simp [dispatched, tracked, enqueued, Call.isDispatchOrTrack, Call.dispatchedEvent,
      Call.trackedEvent, Call.enqueuedEvent]

theorem iteration_interleaved (h : Handlers τ) (t : Test τ)
    (hP : t.trace.filter Call.isDispatchOrTrack =
        (dispatched t.trace).flatMap dispatchThenTrack ∧
      tracked t.trace = dispatched t.trace) :
    (iteration h t).test.trace.filter Call.isDispatchOrTrack =
        (dispatched (iteration h t).test.trace).flatMap dispatchThenTrack ∧
      tracked (iteration h t).test.trace = dispatched (iteration h t).test.trace := by
  obtain ⟨hf, ht⟩ := hP
  simp only [dispatched, tracked] at hf ht
  rcases iteration_cases h t with ⟨_, _, h1⟩ | ⟨d, _, _, h1⟩ | ⟨e, q, calls, succ, _, hst, _, h1⟩
  · rw [h1]
    simp [Step.test, dispatched, tracked, hf, ht, Call.isDispatchOrTrack,
      Call.dispatchedEvent, Call.trackedEvent]
  · rw [h1]
    simp [Step.test, dispatched, tracked, hf, ht, Call.isDispatchOrTrack,
      Call.dispatchedEvent, Call.trackedEvent]
  · rw [h1]
    obtain ⟨h2, h3, h4, _⟩ := stage_observed e calls succ hst
    simp only [dispatched, tracked] at h3 h4
    simp [Step.test, dispatched, tracked, hf, ht, h2, h3, h4, Call.isDispatchOrTrack,
      Call.dispatchedEvent, Call.trackedEvent, dispatchThenTrack]

theorem iteration_fifo (h : Handlers τ) (q0 : List (Event τ)) (t : Test τ)
    (hP : q0 ++ enqueued t.trace = dispatched t.trace ++ t.eventQueue) :
    q0 ++ enqueued (iteration h t).test.trace =
      dispatched (iteration h t).test.trace ++ (iteration h t).test.eventQueue := by
  simp only [dispatched, enqueued] at hP
  rcases iteration_cases h t with ⟨hq, _, h1⟩ | ⟨d, hq, _, h1⟩ |
    ⟨e, q, calls, succ, hq, hst, _, h1⟩
  · rw [h1]
    rw [hq] at hP
    simp [Step.test, dispatched, enqueued, hP, Call.dispatchedEvent, Call.enqueuedEvent]
  · rw [h1]
    rw [hq] at hP
    simp only [List.append_nil] at hP
    simp only [Step.test, dispatched, enqueued, List.filterMap_append, ← List.append_assoc, hP]
    simp [Call.dispatchedEvent, Call.enqueuedEvent]
  · rw [h1]
    rw [hq] at hP
    obtain ⟨_, h3, _, h5⟩ := stage_observed e calls succ hst
    simp only [dispatched, enqueued] at h3 h5
    simp only [Step.test, dispatched, enqueued, List.filterMap_append, List.filterMap_cons,
      ← List.append_assoc, hP]
    simp [Call.dispatchedEvent, Call.enqueuedEvent, h3, h5]

theorem iteration_only_data (h : Handlers τ)
    (hS : ∀ tr d, ∃ err, h.calculateSignal tr d = .error err) (t : Test τ)
    (hP : (∀ e ∈ t.eventQueue, e.isData = true) ∧ ∀ e ∈ tracked t.trace, e.isData = true) :
    (∀ e ∈ (iteration h t).test.eventQueue, e.isData = true) ∧
      ∀ e ∈ tracked (iteration h t).test.trace, e.isData = true := by
  obtain ⟨hq, ht⟩ := hP
  simp only [tracked] at ht
  cases hqe : t.eventQueue with
  | nil =>
    cases hn : h.next t.trace with
    | none =>
      rw [iteration_empty_none h t hqe hn]
      simpa [Step.test, tracked, Call.trackedEvent] using ht
    | some d =>
      rw [iteration_empty_some h t d hqe hn]
      simpa [Step.test, tracked, Call.trackedEvent, Event.isData] using ht
  | cons e q =>
    rw [hqe] at hq
    have he : e.isData = true := hq e (List.mem_cons_self _ _)
    have hrest : ∀ e1 ∈ q, e1.isData = true := fun e1 h1 => hq e1 (List.mem_cons_of_mem _ h1)
    rw [iteration_cons h t e q hqe]
    cases e with
    | data d =>
      obtain ⟨err, herr⟩ := hS (t.trace ++ [.dispatch (.data d), .portfolioUpdate d,
        .statisticUpdate d]) d
      rw [eventLoop_data_error h d ⟨q, t.trace⟩ err herr]
      refine ⟨hrest, fun e1 he1 => ?_⟩
      simp only [Step.test, Test.log, tracked, List.filterMap_append, List.mem_append] at he1
      rcases he1 with (he1 | he1) | he1
      · exact ht e1 he1
      · simp [Call.trackedEvent] at he1
      · simp only [List.filterMap_cons, Call.trackedEvent, List.filterMap_nil,
          List.mem_singleton] at he1
        rw [he1]
        rfl
    | signal s => simp [Event.isData] at he
    | order o => simp [Event.isData] at he
    | fill f => simp [Event.isData] at he

theorem iteration_setup_calls (h : Handlers τ) (t : Test τ) :
    ∃ ext, (iteration h t).test.trace = t.trace ++ ext ∧ ext.countP Call.isSetup = 0 ∧
      ext.countP Call.isSetCash = 0 := by
  rcases iteration_cases h t with ⟨_, _, h1⟩ | ⟨d, _, _, h1⟩ | ⟨e, q, calls, succ, _, hst, _, h1⟩
  · rw [h1]; exact ⟨_, rfl, by simp [Call.isSetup], by simp [Call.isSetCash]⟩
  · rw [h1]; exact ⟨_, rfl, by simp [Call.isSetup], by simp [Call.isSetCash]⟩
  · rw [h1]
    refine ⟨.dispatch e :: calls ++ [.trackEvent e], by simp [Step.test], ?_, ?_⟩
    · cases hst <;> simp [Call.isSetup]
    · cases hst <;> simp [Call.isSetCash]

theorem iteration_queue_length (h : Handlers τ) (t : Test τ)
    (hq : t.eventQueue.length ≤ 1) : (iteration h t).test.eventQueue.length ≤ 1 := by
  rcases iteration_cases h t with ⟨_, _, h1⟩ | ⟨d, _, _, h1⟩ | ⟨e, q, calls, succ, he, hst, _, h1⟩
  · rw [h1]; simp [Step.test]
  · rw [h1]; simp [Step.test]
  · rw [h1]
    rw [he] at hq
    have hq0 : q = [] := by
      cases q with
      | nil => rfl
      | cons a b => simp at hq
    subst hq0
    cases hst <;> simp [Step.test]

theorem iteration_nextCalls (h : Handlers τ) (t : Test τ) :
    (t.eventQueue ≠ [] → nextCalls (iteration h t).test.trace = nextCalls t.trace) ∧
    (t.eventQueue = [] → nextCalls (iteration h t).test.trace = nextCalls t.trace + 1) := by
  rcases iteration_cases h t with ⟨hq, _, h1⟩ | ⟨d, hq, _, h1⟩ | ⟨e, q, calls, succ, hq, hst, _, h1⟩
  · rw [h1]
    exact ⟨fun hne => absurd hq hne, fun _ => by simp [Step.test, nextCalls, Call.isNext]⟩
  · rw [h1]
    exact ⟨fun hne => absurd hq hne, fun _ => by simp [Step.test, nextCalls, Call.isNext]⟩
  · rw [h1]
    refine ⟨fun _ => ?_, fun hnil => by rw [hq] at hnil; cases hnil⟩
    cases hst <;> simp [Step.test, nextCalls, Call.isNext]

/-! ## The course of the bars -/

theorem runLoop_two_invariants (h : Handlers τ) (P Q : Test τ → Prop)
    (hc : ∀ t t1, P t → iteration h t = .continue t1 → P t1)
    (hb : ∀ t t1, P t → iteration h t = .break t1 → Q t1) :
    ∀ fuel t, P t → (∀ t1, runLoop h fuel t = .continue t1 → P t1) ∧
      (∀ t1, runLoop h fuel t = .break t1 → Q t1) := by
  intro fuel
  induction fuel with
  | zero =>
    intro t ht
    refine ⟨fun t1 h1 => ?_, fun t1 h1 => ?_⟩
    · simp only [runLoop] at h1
      cases h1
      exact ht
    · simp [runLoop] at h1
  | succ n ih =>
    intro t ht
    simp only [runLoop]
    split
    · next t2 heq => exact ih t2 (hc t t2 ht heq)
    · next t2 heq =>
      refine ⟨fun t1 h1 => (by cases h1), fun t1 h1 => ?_⟩
      cases h1
      exact hb t t2 ht heq
    · exact ⟨fun t1 h1 => (by cases h1), fun t1 h1 => (by cases h1)⟩

theorem coursed_continue (h : Handlers τ) (t t1 : Test τ) (ht : Coursed h t)
    (hi : iteration h t = .continue t1) : Coursed h t1 := by
  obtain ⟨segs, pend, hp, htr⟩ := ht
  rcases iteration_cases h t with ⟨_, _, h1⟩ | ⟨d, hq, _, h1⟩ |
    ⟨e, q, calls, succ, hq, hst, _, h1⟩
  · rw [h1] at hi; cases hi
  · rw [h1] at hi
    cases hi
    rw [hq] at hp
    cases hp
    exact ⟨segs, _, Pending.pulled d, by simp [htr]⟩
  · rw [h1] at hi
    cases hi
    rw [hq] at hp
    cases hp with
    | pulled d =>
      cases hst with
      | dataOk _ s =>
        exact ⟨segs, _, Pending.signalled d s, by simp [htr, dataCalls]⟩
      | dataErr _ err =>
        exact ⟨segs ++ [.noSignal d err], [], Pending.idle,
          by simp [htr, BarRun.calls, dataCalls]⟩
    | signalled d s =>
      cases hst with
      | signalOk _ o =>
        exact ⟨segs, _, Pending.ordered d s o, by simp [htr, dataCalls, signalCalls]⟩
      | signalErr _ err =>
        exact ⟨segs ++ [.noOrder d s err], [], Pending.idle,
          by simp [htr, BarRun.calls, dataCalls, signalCalls]⟩
    | ordered d s o =>
      cases hst with
      | orderOk _ f =>
        exact ⟨segs, _, Pending.executed d s o f,
          by simp [htr, dataCalls, signalCalls, orderCalls]⟩
      | orderErr _ err =>
        exact ⟨segs ++ [.noFill d s o err], [], Pending.idle,
          by simp [htr, BarRun.calls, dataCalls, signalCalls, orderCalls]⟩
    | executed d s o f =>
      cases hst with
      | fillOk _ x =>
        exact ⟨segs ++ [.filled d s o f (.ok x)], [], Pending.idle,
          by simp [htr, BarRun.calls, dataCalls, signalCalls, orderCalls, fillCalls]⟩
      | fillErr _ err =>
        exact ⟨segs ++ [.filled d s o f (.error err)], [], Pending.idle,
          by simp [htr, BarRun.calls, dataCalls, signalCalls, orderCalls, fillCalls]⟩

theorem coursed_break (h : Handlers τ) (t t1 : Test τ) (ht : Coursed h t)
    (hi : iteration h t = .break t1) : Finished h t1 := by
  obtain ⟨segs, pend, hp, htr⟩ := ht
  rcases iteration_cases h t with ⟨hq, _, h1⟩ | ⟨d, _, _, h1⟩ |
    ⟨e, q, calls, succ, _, _, _, h1⟩
  · rw [h1] at hi
    cases hi
    rw [hq] at hp
    cases hp
    exact ⟨segs, rfl, by simp [htr]⟩
  · rw [h1] at hi; cases hi
  · rw [h1] at hi; cases hi

theorem coursed_setup (h : Handlers τ) : Coursed h (setup h []) :=
  ⟨[], [], by simpa [setup_eq] using Pending.idle, by simp⟩

theorem tracked_append (a b : List (Call τ)) : tracked (a ++ b) = tracked a ++ tracked b := by
  simp [tracked]

theorem dispatched_append (a b : List (Call τ)) :
    dispatched (a ++ b) = dispatched a ++ dispatched b := by
  simp [dispatched]

theorem barRun_observed (c : BarRun τ) :
    tracked c.calls = c.events ∧ dispatched c.calls = c.events ∧ nextCalls c.calls = 1 := by
  cases c with
  | noSignal d err =>
    simp [BarRun.calls, BarRun.events, dataCalls, tracked, dispatched, nextCalls,
      Call.trackedEvent, Call.dispatchedEvent, Call.isNext]
  | noOrder d s err =>
    simp [BarRun.calls, BarRun.events, dataCalls, signalCalls, tracked, dispatched, nextCalls,
      Call.trackedEvent, Call.dispatchedEvent, Call.isNext]
  | noFill d s o err =>
    simp [BarRun.calls, BarRun.events, dataCalls, signalCalls, orderCalls, tracked, dispatched,
      nextCalls, Call.trackedEvent, Call.dispatchedEvent, Call.isNext]
  | filled d s o f r =>
    cases r <;>
      simp [BarRun.calls, BarRun.events, dataCalls, signalCalls, orderCalls, fillCalls, tracked,
        dispatched, nextCalls, Call.trackedEvent, Call.dispatchedEvent, Call.isNext]

theorem barRuns_observed (segs : List (BarRun τ)) :
    tracked (segs.flatMap BarRun.calls) = segs.flatMap BarRun.events ∧
      dispatched (segs.flatMap BarRun.calls) = segs.flatMap BarRun.events ∧
      nextCalls (segs.flatMap BarRun.calls) = segs.length := by
  induction segs with
  | nil => exact ⟨rfl, rfl, rfl⟩
  | cons c cs ih =>
    obtain ⟨h1, h2, h3⟩ := barRun_observed c
    obtain ⟨i1, i2, i3⟩ := ih
    refine ⟨?_, ?_, ?_⟩
    · rw [List.flatMap_cons, tracked_append, h1, i1, List.flatMap_cons]
    · rw [List.flatMap_cons, dispatched_append, h2, i2, List.flatMap_cons]
    · rw [List.flatMap_cons, nextCalls_append, h3, i3, List.length_cons, Nat.add_comm]

theorem produced_append (tr ext : List (Call τ)) (e : Event τ) (hp : Produced tr e) :
    Produced (tr ++ ext) e := by
  cases e with
  | data d =>
    obtain ⟨pre, post, rfl⟩ := hp
    exact ⟨pre, post ++ ext, by simp⟩
  | signal s =>
    obtain ⟨pre, post, d, rfl⟩ := hp
    exact ⟨pre, post ++ ext, d, by simp⟩
  | order o =>
    obtain ⟨pre, post, s, rfl⟩ := hp
    exact ⟨pre, post ++ ext, s, by simp⟩
  | fill f =>
    obtain ⟨pre, post, o, rfl⟩ := hp
    exact ⟨pre, post ++ ext, o, by simp⟩

theorem stage_produced (tr : List (Call τ)) (e : Event τ) (calls : List (Call τ))
    (succ : List (Event τ)) (hst : Stage e calls succ) :
    ∀ e1 ∈ succ, Produced (tr ++ .dispatch e :: calls ++ [.trackEvent e]) e1 := by
  intro e1 he1
  cases hst with
  | dataOk d s =>
    simp only [List.mem_singleton] at he1
    subst he1
    exact ⟨tr, [.trackEvent (.data d)], d, by simp⟩
  | signalOk s o =>
    simp only [List.mem_singleton] at he1
    subst he1
    exact ⟨tr, [.trackEvent (.signal s)], s, by simp⟩
  | orderOk o f =>
    simp only [List.mem_singleton] at he1
    subst he1
    exact ⟨tr, [.trackEvent (.order o)], o, by simp⟩
  | dataErr d err => simp at he1
  | signalErr s err => simp at he1
  | orderErr o err => simp at he1
  | fillOk f x => simp at he1
  | fillErr f err => simp at he1

theorem iteration_produced (h : Handlers τ) (t : Test τ)
    (hP : ∀ e ∈ t.eventQueue ++ tracked t.trace, Produced t.trace e) :
    ∀ e ∈ (iteration h t).test.eventQueue ++ tracked (iteration h t).test.trace,
      Produced (iteration h t).test.trace e := by
  rcases iteration_cases h t with ⟨hq, _, h1⟩ | ⟨d, hq, _, h1⟩ |
    ⟨e, q, calls, succ, hq, hst, _, h1⟩
  · rw [h1]
    intro e1 he1
    simp only [Step.test, tracked_append, List.nil_append, List.mem_append] at he1
    rcases he1 with he1 | he1
    · exact produced_append _ _ _ (hP e1 (List.mem_append_right _ he1))
    · simp [tracked, Call.trackedEvent] at he1
  · rw [h1]
    intro e1 he1
    simp only [Step.test, tracked_append, List.mem_append, List.mem_singleton] at he1
    rcases he1 with he1 | he1 | he1
    · subst he1
      exact ⟨t.trace, [], by simp [Step.test]⟩
    · exact produced_append _ _ _ (hP e1 (List.mem_append_right _ he1))
    · simp [tracked, Call.trackedEvent] at he1
  · rw [h1]
    intro e1 he1
    have hobs := (stage_observed e calls succ hst).2.2.1
    have htr : tracked (t.trace ++ .dispatch e :: calls ++ [.trackEvent e]) =
        tracked t.trace ++ [e] := by
      have hcons : tracked (.dispatch e :: calls) = tracked calls := by
        simp [tracked, Call.trackedEvent]
      rw [tracked_append, List.append_cons, tracked_append, tracked_append, hobs]
      simp [tracked, Call.trackedEvent]
    simp only [Step.test, htr, List.mem_append, List.mem_singleton] at he1
    rw [hq] at hP
    rcases he1 with (he1 | he1) | he1 | he1
    · have := hP e1 (List.mem_append_left _ (List.mem_cons_of_mem _ he1))
      simpa [Step.test] using produced_append _ (.dispatch e :: calls ++ [.trackEvent e]) _ this
    · exact stage_produced t.trace e calls succ hst e1 he1
    · have := hP e1 (List.mem_append_right _ he1)
      simpa [Step.test] using produced_append _ (.dispatch e :: calls ++ [.trackEvent e]) _ this
    · subst he1
      have := hP e1 (List.mem_append_left _ (List.mem_cons_self _ _))
      simpa [Step.test] using produced_append _ (.dispatch e1 :: calls ++ [.trackEvent e1]) _ this

theorem pulled_append (a b : List (Call τ)) : pulled (a ++ b) = pulled a ++ pulled b := by
  simp [pulled]

theorem stage_pulled (e : Event τ) (calls : List (Call τ)) (succ : List (Event τ))
    (hst : Stage e calls succ) : pulled calls = [] := by
  cases hst <;> simp [pulled, Call.pulledBar]

theorem barRun_pulled (c : BarRun τ) : pulled c.calls = [c.bar] := by
  cases c with
  | noSignal d err => simp [BarRun.calls, BarRun.bar, dataCalls, pulled, Call.pulledBar]
  | noOrder d s err =>
    simp [BarRun.calls, BarRun.bar, dataCalls, signalCalls, pulled, Call.pulledBar]
  | noFill d s o err =>
    simp [BarRun.calls, BarRun.bar, dataCalls, signalCalls, orderCalls, pulled,
      Call.pulledBar]
  | filled d s o f r =>
    cases r <;>
      simp [BarRun.calls, BarRun.bar, dataCalls, signalCalls, orderCalls, fillCalls, pulled,
        Call.pulledBar]

theorem barRuns_pulled (segs : List (BarRun τ)) :
    pulled (segs.flatMap BarRun.calls) = segs.map BarRun.bar := by
  induction segs with
  | nil => rfl
  | cons c cs ih => rw [List.flatMap_cons, pulled_append, barRun_pulled, ih]; rfl

theorem barRun_events (c : BarRun τ) :
    c.events.filter Event.isData = [.data c.bar] ∧ 1 ≤ c.events.length ∧
      c.events.length ≤ 4 := by
  cases c <;> simp [BarRun.events, BarRun.bar, Event.isData]

theorem barRuns_events (segs : List (BarRun τ)) :
    (segs.flatMap BarRun.events).filter Event.isData = (segs.map BarRun.bar).map Event.data ∧
      segs.length ≤ (segs.flatMap BarRun.events).length ∧
      (segs.flatMap BarRun.events).length ≤ 4 * segs.length := by
  induction segs with
  | nil => simp
  | cons c cs ih =>
    obtain ⟨h1, h2, h3⟩ := barRun_events c
    obtain ⟨i1, i2, i3⟩ := ih
    refine ⟨?_, ?_, ?_⟩
    · rw [List.flatMap_cons, List.filter_append, h1, i1]; rfl
    · rw [List.flatMap_cons, List.length_append, List.length_cons]; omega
    · rw [List.flatMap_cons, List.length_append, List.length_cons]; omega

theorem cursor_continue (h : Handlers τ) (bars : List τ.DataEvent) (hb : YieldsBars h bars)
    (t t1 : Test τ)
    (ht : pulled t.trace = bars.take (nextCalls t.trace) ∧ nextCalls t.trace ≤ bars.length)
    (hi : iteration h t = .continue t1) :
    pulled t1.trace = bars.take (nextCalls t1.trace) ∧ nextCalls t1.trace ≤ bars.length := by
  obtain ⟨hp, hk⟩ := ht
  rcases iteration_cases h t with ⟨_, _, h1⟩ | ⟨d, _, hn, h1⟩ |
    ⟨e, q, calls, succ, _, hst, _, h1⟩
  · rw [h1] at hi; cases hi
  · rw [h1] at hi
    cases hi
    have hlt := yieldsBars_lt h bars hb _ d hn
    have hd : bars[nextCalls t.trace]? = some d := by rw [← hb t.trace]; exact hn
    have hnc : nextCalls (t.trace ++ [Call.next (some d)]) = nextCalls t.trace + 1 := by
      simp [nextCalls, Call.isNext]
    refine ⟨?_, by rw [hnc]; exact hlt⟩
    rw [hnc, pulled_append, hp, List.take_succ, hd]
    simp [pulled, Call.pulledBar]
  · rw [h1] at hi
    cases hi
    have hz := (stage_rank e calls succ hst).2
    have hpz := stage_pulled e calls succ hst
    have hnc : nextCalls (t.trace ++ .dispatch e :: calls ++ [.trackEvent e]) =
        nextCalls t.trace := by
      simp only [nextCalls, List.countP_append, List.countP_cons, List.countP_nil] at hz ⊢
      simp [Call.isNext, hz]
    have hpc : pulled (t.trace ++ .dispatch e :: calls ++ [.trackEvent e]) =
        pulled t.trace := by
      simp only [pulled, List.filterMap_append, List.filterMap_cons] at hpz ⊢
      simp [Call.pulledBar, hpz]
    exact ⟨by rw [hnc, hpc]; exact hp, by rw [hnc]; exact hk⟩

theorem cursor_break (h : Handlers τ) (bars : List τ.DataEvent) (hb : YieldsBars h bars)
    (t t1 : Test τ)
    (ht : pulled t.trace = bars.take (nextCalls t.trace) ∧ nextCalls t.trace ≤ bars.length)
    (hi : iteration h t = .break t1) :
    pulled t1.trace = bars ∧ nextCalls t1.trace = bars.length + 1 := by
  obtain ⟨hp, hk⟩ := ht
  rcases iteration_cases h t with ⟨_, hn, h1⟩ | ⟨d, _, _, h1⟩ |
    ⟨e, q, calls, succ, _, _, _, h1⟩
  · rw [h1] at hi
    cases hi
    have hge : bars.length ≤ nextCalls t.trace := by
      by_contra hlt
      have := hb t.trace
      rw [hn, List.getElem?_eq_getElem (Nat.lt_of_not_le hlt)] at this
      cases this
    have heq : nextCalls t.trace = bars.length := Nat.le_antisymm hk hge
    refine ⟨?_, ?_⟩
    · rw [pulled_append, hp, heq, List.take_length]
      simp [pulled, Call.pulledBar]
    · rw [nextCalls_append, heq]
      simp [nextCalls, Call.isNext]
  · rw [h1] at hi; cases hi
  · rw [h1] at hi; cases hi

/-! ## The strategy tree: lemmas -/

theorem collectStrategies_spec (cs : List (NodeHandler α δ ρ)) :
    (collectStrategies cs).map NodeHandler.strategy = cs.filter NodeHandler.isStrategy := by
  induction cs with
  | nil => rfl
  | cons c cs ih =>
    cases c with
    | strategy s => simp [collectStrategies, NodeHandler.isStrategy, ih]
    | asset a => simp [collectStrategies, NodeHandler.isStrategy, ih]

theorem collectAssets_spec (cs : List (NodeHandler α δ ρ)) :
    (collectAssets cs).map NodeHandler.asset =
      cs.filter (fun c => !c.isStrategy) := by
  induction cs with
  | nil => rfl
  | cons c cs ih =>
    cases c with
    | strategy s => simp [collectAssets, NodeHandler.isStrategy, ih]
    | asset a => simp [collectAssets, NodeHandler.isStrategy, ih]

mutual
theorem eraseData_withData (d : Option δ) :
    ∀ s : Strategy α δ ρ, (s.withData d).eraseData = s.eraseData
  | .mk n r cs a d0 p => by
    simp only [Strategy.withData, Strategy.eraseData, eraseDataChildren_withData d cs]
theorem eraseDataChildren_withData (d : Option δ) :
    ∀ cs : List (NodeHandler α δ ρ), eraseDataChildren (withDataChildren d cs) = eraseDataChildren cs
  | [] => by simp only [withDataChildren]
  | .strategy s :: cs => by
    simp only [withDataChildren, eraseDataChildren, eraseData_withData d s,
      eraseDataChildren_withData d cs]
  | .asset a :: cs => by
    simp only [withDataChildren, eraseDataChildren, eraseDataChildren_withData d cs]
end

mutual
theorem subStrategies_withData (d : Option δ) :
    ∀ (s : Strategy α δ ρ), ∀ c ∈ (s.withData d).subStrategies, c.data = d
  | .mk n r cs a d0 p => by
    intro c hc
    simp only [Strategy.withData, Strategy.subStrategies, List.mem_cons] at hc
    rcases hc with hc | hc
    · rw [hc]; rfl
    · exact subStrategiesOf_withData d cs c hc
theorem subStrategiesOf_withData (d : Option δ) :
    ∀ (cs : List (NodeHandler α δ ρ)), ∀ c ∈ subStrategiesOf (withDataChildren d cs), c.data = d
  | [] => by
    intro c hc
    simp [withDataChildren, subStrategiesOf] at hc
  | .strategy s :: cs => by
    intro c hc
    simp only [withDataChildren, subStrategiesOf, List.mem_append] at hc
    rcases hc with hc | hc
    · exact subStrategies_withData d s c hc
    · exact subStrategiesOf_withData d cs c hc
  | .asset a :: cs => by
    intro c hc
    simp only [withDataChildren, subStrategiesOf] at hc
    exact subStrategiesOf_withData d cs c hc
end


mutual
theorem erasePortfolio_withPortfolio (p : Option ρ) :
    ∀ s : Strategy α δ ρ, (s.withPortfolio p).erasePortfolio = s.erasePortfolio
  | .mk n r cs a d p0 => by
    simp only [Strategy.withPortfolio, Strategy.erasePortfolio,
      erasePortfolioChildren_withPortfolio p cs]
theorem erasePortfolioChildren_withPortfolio (p : Option ρ) :
    ∀ cs : List (NodeHandler α δ ρ),
      erasePortfolioChildren (withPortfolioChildren p cs) = erasePortfolioChildren cs
  | [] => by simp only [withPortfolioChildren]
  | .strategy s :: cs => by
    simp only [withPortfolioChildren, erasePortfolioChildren, erasePortfolio_withPortfolio p s,
      erasePortfolioChildren_withPortfolio p cs]
  | .asset a :: cs => by
    simp only [withPortfolioChildren, erasePortfolioChildren,
      erasePortfolioChildren_withPortfolio p cs]
end

mutual
theorem subStrategies_withPortfolio (p : Option ρ) :
    ∀ (s : Strategy α δ ρ), ∀ c ∈ (s.withPortfolio p).subStrategies, c.portfolio = p
  | .mk n r cs a d p0 => by
    intro c hc
    simp only [Strategy.withPortfolio, Strategy.subStrategies, List.mem_cons] at hc
    rcases hc with hc | hc
    · rw [hc]; rfl
    · exact subStrategiesOf_withPortfolio p cs c hc
theorem subStrategiesOf_withPortfolio (p : Option ρ) :
    ∀ (cs : List (NodeHandler α δ ρ)),
      ∀ c ∈ subStrategiesOf (withPortfolioChildren p cs), c.portfolio = p
  | [] => by
    intro c hc
    simp [withPortfolioChildren, subStrategiesOf] at hc
  | .strategy s :: cs => by
    intro c hc
    simp only [withPortfolioChildren, subStrategiesOf, List.mem_append] at hc
    rcases hc with hc | hc
    · exact subStrategies_withPortfolio p s c hc
    · exact subStrategiesOf_withPortfolio p cs c hc
  | .asset a :: cs => by
    intro c hc
    simp only [withPortfolioChildren, subStrategiesOf] at hc
    exact subStrategiesOf_withPortfolio p cs c hc
end

theorem foldl_pushAlgo (algos : List α) :
    ∀ s : Strategy α δ ρ, (algos.foldl Strategy.pushAlgo s).algos.stack = s.algos.stack ++ algos ∧
      (algos.foldl Strategy.pushAlgo s).name = s.name ∧
      (algos.foldl Strategy.pushAlgo s).root = s.root ∧
      (algos.foldl Strategy.pushAlgo s).children = s.children ∧
      (algos.foldl Strategy.pushAlgo s).data = s.data ∧
      (algos.foldl Strategy.pushAlgo s).portfolio = s.portfolio := by
  induction algos with
  | nil => intro s; simp
  | cons x xs ih =>
    intro s
    obtain ⟨h1, h2, h3, h4, h5, h6⟩ := ih (s.pushAlgo x)
    cases s with
    | mk n r cs a d p =>
      simp only [List.foldl_cons]
      refine ⟨?_, ?_, ?_, ?_, ?_, ?_⟩
      · rw [h1]; simp [Strategy.pushAlgo, Strategy.algos]
      · rw [h2]; rfl
      · rw [h3]; rfl
      · rw [h4]; rfl
      · rw [h5]; rfl
      · rw [h6]; rfl

/-- The cases of `TestStrategies` (`strategy_test.go`). -/
theorem TestStrategies_cases :
    (Strategy.mk "test" true [] (⟨[]⟩ : AlgoStack Bool) (none : Option Unit)
      (none : Option Unit)).Strategies.1 = [] ∧
    (Strategy.mk "test" true [] (⟨[]⟩ : AlgoStack Bool) (none : Option Unit)
      (none : Option Unit)).Strategies.2.1 = false ∧
    (Strategy.mk "test" true [.asset ⟨"asset", false⟩] (⟨[]⟩ : AlgoStack Bool)
      (none : Option Unit) (none : Option Unit)).Strategies.1 = [] ∧
    (Strategy.mk "test" true [.asset ⟨"asset", false⟩] (⟨[]⟩ : AlgoStack Bool)
      (none : Option Unit) (none : Option Unit)).Strategies.2.1 = false ∧
    (Strategy.mk "test" true
      [.strategy (.mk "subA" false [] ⟨[]⟩ none none),
       .strategy (.mk "subB" false [] ⟨[]⟩ none none),
       .asset ⟨"assetA", false⟩, .asset ⟨"assetB", false⟩]
      (⟨[]⟩ : AlgoStack Bool) (none : Option Unit) (none : Option Unit)).Strategies.1 =
      [.mk "subA" false [] ⟨[]⟩ none none, .mk "subB" false [] ⟨[]⟩ none none] ∧
    (Strategy.mk "test" true
      [.strategy (.mk "subA" false [] ⟨[]⟩ none none),
       .strategy (.mk "subB" false [] ⟨[]⟩ none none),
       .asset ⟨"assetA", false⟩, .asset ⟨"assetB", false⟩]
      (⟨[]⟩ : AlgoStack Bool) (none : Option Unit) (none : Option Unit)).Strategies.2.1 =
      true :=
  ⟨rfl, rfl, rfl, rfl, rfl, rfl⟩

/-- The cases of `TestAssets` (`strategy_test.go`). -/
theorem TestAssets_cases :
    (Strategy.mk "test" true [] (⟨[]⟩ : AlgoStack Bool) (none : Option Unit)
      (none : Option Unit)).Assets.1 = [] ∧
    (Strategy.mk "test" true [] (⟨[]⟩ : AlgoStack Bool) (none : Option Unit)
      (none : Option Unit)).Assets.2.1 = false ∧
    (Strategy.mk "test" true [.strategy (.mk "subA" true [] ⟨[]⟩ none none)]
      (⟨[]⟩ : AlgoStack Bool) (none : Option Unit) (none : Option Unit)).Assets.1 = [] ∧
    (Strategy.mk "test" true [.strategy (.mk "subA" true [] ⟨[]⟩ none none)]
      (⟨[]⟩ : AlgoStack Bool) (none : Option Unit) (none : Option Unit)).Assets.2.1 = false ∧
    (Strategy.mk "test" true
      [.strategy (.mk "subA" false [] ⟨[]⟩ none none),
       .strategy (.mk "subB" false [] ⟨[]⟩ none none),
       .asset ⟨"assetA", false⟩, .asset ⟨"assetB", false⟩]
      (⟨[]⟩ : AlgoStack Bool) (none : Option Unit) (none : Option Unit)).Assets.1 =
      [⟨"assetA", false⟩, ⟨"assetB", false⟩] ∧
    (Strategy.mk "test" true
      [.strategy (.mk "subA" false [] ⟨[]⟩ none none),
       .strategy (.mk "subB" false [] ⟨[]⟩ none none),
       .asset ⟨"assetA", false⟩, .asset ⟨"assetB", false⟩]
      (⟨[]⟩ : AlgoStack Bool) (none : Option Unit) (none : Option Unit)).Assets.2.1 = true :=
  ⟨rfl, rfl, rfl, rfl, rfl, rfl⟩

/-- The cases of `TestSetData` and `TestSetPortfolio` (`strategy_test.go`). -/
theorem TestSetData_cases :
    (Strategy.mk "test" true [] (⟨[]⟩ : AlgoStack Bool) (none : Option Unit)
      (none : Option Unit)).SetData (some ()) = (.mk "test" true [] ⟨[]⟩ (some ()) none, none) ∧
    (Strategy.mk "test" true [.strategy (.mk "sub" false [] ⟨[]⟩ none none)]
      (⟨[]⟩ : AlgoStack Bool) (none : Option Unit) (none : Option Unit)).SetData (some ()) =
      (.mk "test" true [.strategy (.mk "sub" false [] ⟨[]⟩ (some ()) none)] ⟨[]⟩ (some ()) none,
        none) ∧
    (Strategy.mk "test" true [] (⟨[]⟩ : AlgoStack Bool) (none : Option Unit)
      (none : Option Unit)).SetPortfolio (some ()) =
      (.mk "test" true [] ⟨[]⟩ none (some ()), none) ∧
    (Strategy.mk "test" true [.strategy (.mk "sub" false [] ⟨[]⟩ none none)]
      (⟨[]⟩ : AlgoStack Bool) (none : Option Unit) (none : Option Unit)).SetPortfolio
        (some ()) =
      (.mk "test" true [.strategy (.mk "sub" false [] ⟨[]⟩ none (some ()))] ⟨[]⟩ none (some ()),
        none) :=
  ⟨rfl, rfl, rfl, rfl⟩

/-- The cases of `TestStrategySingleSetAlgo` and `TestStrategyMultipleSetAlgo`
(`strategy_test.go`); `true` stands for `TrueAlgo`, `false` for `FalseAlgo`. -/
theorem TestSetAlgo_cases :
    (Strategy.mk "" false [] (⟨[]⟩ : AlgoStack Bool) (none : Option Unit)
      (none : Option Unit)).SetAlgo [true] = .mk "" false [] ⟨[true]⟩ none none ∧
    (Strategy.mk "" false [] (⟨[]⟩ : AlgoStack Bool) (none : Option Unit)
      (none : Option Unit)).SetAlgo [true, true, false] =
      .mk "" false [] ⟨[true, true, false]⟩ none none :=
  ⟨rfl, rfl⟩

/-! ## The claims -/

/-- C1: event loop ordering.  For a data provider that yields the bars
D1..Dn and then reports exhaustion, and strategy, portfolio and exchange
handlers that never return an error, `Run` started on an empty queue returns
nil and the events passed to `TrackEvent` are exactly
D1, S1, O1, F1, ..., Dn, Sn, On, Fn, where the call record shows Si to be
what `CalculateSignal` returned for Di, Oi what `OnSignal` returned for Si and
Fi what `ExecuteOrder` returned for Oi. -/
theorem Run_event_order (h : Handlers τ) (bars : List τ.DataEvent)
    (hdata : YieldsBars h bars)
    (hS : ∀ tr d err, h.calculateSignal tr d ≠ .error err)
    (hO : ∀ tr s err, h.onSignal tr s ≠ .error err)
    (hE : ∀ tr o err, h.executeOrder tr o ≠ .error err)
    (hF : ∀ tr f err, h.onFill tr f ≠ .error err) :
    ∃ chains : List (Chain τ), chains.map Chain.bar = bars ∧
      ∃ fuel t, Run h [] fuel = .returned none t ∧
        t.trace = (setup h []).trace ++ chains.flatMap Chain.calls ++
          [.next none, .printResult] ∧
        tracked t.trace = chains.flatMap Chain.events := by
  obtain ⟨chains, hch, hrun⟩ := runLoop_all_chains h hS hO hE hF bars [] (setup h [])
    (by simp [setup_eq]) (by simpa using hdata)
    (by simp [setup_eq, nextCalls, Call.isNext])
  refine ⟨chains, hch, _, _, Run_of_break h [] _ _ hrun, by simp [Test.log], ?_⟩
  simp only [Test.log, tracked, List.filterMap_append]
  have := tracked_chains chains
  simp only [tracked] at this
  rw [this]
  simp [setup_eq, Call.trackedEvent]

/-- Witness of C1: two bars, 7 and 20, with handlers that add one at each stage. -/
theorem Run_event_order_witness :
    YieldsBars (okHandlers [7, 20]) [7, 20] ∧
    ∃ chains : List (Chain exTypes), chains.map Chain.bar = [7, 20] ∧
      ∃ fuel t, Run (okHandlers [7, 20]) [] fuel = .returned none t ∧
        t.trace = (setup (okHandlers [7, 20]) []).trace ++ chains.flatMap Chain.calls ++
          [.next none, .printResult] ∧
        tracked t.trace = chains.flatMap Chain.events :=
  ⟨fun _ => rfl,
    Run_event_order (okHandlers [7, 20]) [7, 20] (fun _ => rfl)
      (fun _ _ _ hc => by cases hc) (fun _ _ _ hc => by cases hc)
      (fun _ _ _ hc => by cases hc) (fun _ _ _ hc => by cases hc)⟩

/-- Counterexample to C2: with a strategy that fails at every call and the
bars 7 and 9, `Run` returns nil, not the error: it dispatches the first bar,
goes on to pull and dispatch the second, and prints the final report. -/
theorem Run_error_not_returned :
    (∀ tr d, (failingStrategy [7, 9]).calculateSignal tr d = .error "no signal") ∧
    YieldsBars (failingStrategy [7, 9]) [7, 9] ∧
    Run (failingStrategy [7, 9]) [] 5 =
      .returned none ⟨[], [.stream, .initialCash (10000 : Nat), .setCash (10000 : Nat),
        .next (some (7 : Nat)), .dispatch (.data (7 : Nat)), .portfolioUpdate (7 : Nat),
        .statisticUpdate (7 : Nat), .calculateSignal (7 : Nat) (.error "no signal"),
        .trackEvent (.data (7 : Nat)),
        .next (some (9 : Nat)), .dispatch (.data (9 : Nat)), .portfolioUpdate (9 : Nat),
        .statisticUpdate (9 : Nat), .calculateSignal (9 : Nat) (.error "no signal"),
        .trackEvent (.data (9 : Nat)), .next none, .printResult]⟩ ∧
    ∀ fuel t, Run (failingStrategy [7, 9]) [] fuel ≠ .returned (some "no signal") t := by
  refine ⟨fun _ _ => rfl, fun _ => rfl, rfl, fun fuel t hr => ?_⟩
  have := (Run_returned _ _ _ _ _ hr).1
  cases this

/-- C2, amended: when `CalculateSignal` returns the error `err` at every
call and the data provider yields the bars D1..Dn and then reports
exhaustion, `Run` started on an empty queue returns nil: each bar is pulled,
dispatched (the error is dropped by `eventLoop`) and tracked, `Next` is
called n + 1 times, the tracked events are D1..Dn, and the final report is
printed. -/
theorem Run_strategy_error_dropped (h : Handlers τ) (bars : List τ.DataEvent) (err : τ.Err)
    (hS : ∀ tr d, h.calculateSignal tr d = .error err)
    (hdata : YieldsBars h bars) :
    ∃ fuel t, Run h [] fuel = .returned none t ∧
      t.trace = (setup h []).trace ++ bars.flatMap (skippedBar err) ++
        [.next none, .printResult] ∧
      nextCalls t.trace = bars.length + 1 ∧
      tracked t.trace = bars.map Event.data := by
  have hrun := runLoop_all_skipped h err hS bars [] (setup h [])
    (by simp [setup_eq]) (by simpa using hdata)
    (by simp [setup_eq, nextCalls, Call.isNext])
  refine ⟨_, _, Run_of_break h [] _ _ hrun, by simp [Test.log], ?_, ?_⟩
  · simp only [Test.log, nextCalls_append, nextCalls_skipped]
    simp [setup_eq, nextCalls, Call.isNext]
  · simp only [Test.log, tracked, List.filterMap_append]
    have := tracked_skipped err bars
    simp only [tracked] at this
    rw [this]
    simp [setup_eq, Call.trackedEvent]

/-- Witness of C2 as amended: the bars 7 and 9 with a failing strategy. -/
theorem Run_strategy_error_dropped_witness :
    (∀ tr d, (failingStrategy [7, 9]).calculateSignal tr d = .error "no signal") ∧
    YieldsBars (failingStrategy [7, 9]) [7, 9] ∧
    ∃ fuel t, Run (failingStrategy [7, 9]) [] fuel = .returned none t ∧
      t.trace = (setup (failingStrategy [7, 9]) []).trace ++
        List.flatMap [7, 9] (skippedBar "no signal") ++ [.next none, .printResult] ∧
      nextCalls t.trace = [7, 9].length + 1 ∧
      tracked t.trace = List.map Event.data [7, 9] :=
  ⟨fun _ _ => rfl, fun _ => rfl,
    Run_strategy_error_dropped (failingStrategy [7, 9]) [7, 9] "no signal"
      (fun _ _ => rfl) (fun _ => rfl)⟩

/-- C3: the dispatch step `eventLoop` returns a nil error for every event and
every behaviour of the handlers, and so every `Run` that returns, returns nil
and has called `statistic.PrintResult` exactly once. -/
theorem eventLoop_returns_nil (h : Handlers τ) :
    (∀ e t, (eventLoop h e t).1 = none) ∧
    ∀ q fuel err t, Run h q fuel = .returned err t →
      err = none ∧ printCalls t.trace = 1 := by
  refine ⟨eventLoop_fst h, ?_⟩
  intro q fuel err t hr
  obtain ⟨he, t1, hb, ht⟩ := Run_returned h q fuel err t hr
  refine ⟨he, ?_⟩
  have hinv := runLoop_invariant h (fun t => printCalls t.trace = 0)
    (fun t ht => by
      show printCalls (iteration h t).test.trace = 0
      rw [iteration_printCalls]; exact ht) fuel (setup h q)
    (by simp [setup_eq, printCalls, Call.isPrintResult])
  rw [hb] at hinv
  simp only [Step.test] at hinv
  subst ht
  simp [Test.log, printCalls, Call.isPrintResult] at hinv ⊢
  exact hinv

/-- Witness of C3: a run over one bar whose strategy fails at every call
still returns nil, with one final report. -/
theorem eventLoop_returns_nil_witness :
    Run (failingStrategy [7]) [] 3 =
      .returned none ⟨[], [.stream, .initialCash (10000 : Nat), .setCash (10000 : Nat),
        .next (some (7 : Nat)), .dispatch (.data (7 : Nat)), .portfolioUpdate (7 : Nat),
        .statisticUpdate (7 : Nat), .calculateSignal (7 : Nat) (.error "no signal"),
        .trackEvent (.data (7 : Nat)), .next none, .printResult]⟩ ∧
    ((none : Option String) = none ∧
      printCalls (τ := exTypes) [.stream, .initialCash (10000 : Nat), .setCash (10000 : Nat),
        .next (some (7 : Nat)), .dispatch (.data (7 : Nat)), .portfolioUpdate (7 : Nat),
        .statisticUpdate (7 : Nat), .calculateSignal (7 : Nat) (.error "no signal"),
        .trackEvent (.data (7 : Nat)), .next none, .printResult] = 1) :=
  ⟨rfl, (eventLoop_returns_nil (failingStrategy [7])).2 [] 3 none _ rfl⟩

/-- C4: if the first `Next` call of a run started on an empty queue reports
exhaustion, `Run` returns nil (within one loop iteration, whatever the bound),
and the calls it made are exactly: `Stream`, `InitialCash`, one `SetCash`
with the amount `InitialCash` returned, the one `Next`, one `PrintResult`;
no event was dispatched or tracked. -/
theorem Run_empty_stream (h : Handlers τ)
    (hnext : h.next (setup h []).trace = none) (fuel : Nat) :
    ∃ c, c = h.initialCash [.stream] ∧
      Run h [] (fuel + 1) =
        .returned none ⟨[], [.stream, .initialCash c, .setCash c, .next none, .printResult]⟩ ∧
      tracked (Run h [] (fuel + 1)).test.trace = [] ∧
      dispatched (Run h [] (fuel + 1)).test.trace = [] ∧
      printCalls (Run h [] (fuel + 1)).test.trace = 1 := by
  have hb : runLoop h (fuel + 1) (setup h []) =
      .break ⟨[], (setup h []).trace ++ [.next none]⟩ := by
    simp only [runLoop]
    rw [iteration_empty_none h (setup h []) (by simp [setup_eq]) hnext]
  have hrun := Run_of_break h [] (fuel + 1) _ hb
  refine ⟨_, rfl, ?_, ?_, ?_, ?_⟩
  · rw [hrun]; simp [setup_eq, Test.log]
  · rw [hrun]; simp [setup_eq, Test.log, RunResult.test, tracked, Call.trackedEvent]
  · rw [hrun]; simp [setup_eq, Test.log, RunResult.test, dispatched, Call.dispatchedEvent]
  · rw [hrun]; simp [setup_eq, Test.log, RunResult.test, printCalls, Call.isPrintResult]

/-- Witness of C4: the run over no bars. -/
theorem Run_empty_stream_witness :
    (okHandlers []).next (setup (okHandlers []) []).trace = none ∧
    ∃ c, c = (okHandlers []).initialCash [.stream] ∧
      Run (okHandlers []) [] (0 + 1) =
        .returned none ⟨[], [.stream, .initialCash c, .setCash c, .next none, .printResult]⟩ ∧
      tracked (Run (okHandlers []) [] (0 + 1)).test.trace = [] ∧
      dispatched (Run (okHandlers []) [] (0 + 1)).test.trace = [] ∧
      printCalls (Run (okHandlers []) [] (0 + 1)).test.trace = 1 :=
  ⟨rfl, Run_empty_stream (okHandlers []) rfl 0⟩

/-- C5: non-fatal skip.  Dispatching a `DataEvent`, `SignalEvent` or
`OrderEvent` returns nil; when the stage handler (`CalculateSignal`,
`OnSignal`, `ExecuteOrder`) returned an error the queue is what it was, and
when it returned no error the queue is what it was followed by exactly the
successor the handler returned. -/
theorem eventLoop_skip_or_enqueue (h : Handlers τ) (t : Test τ) :
    (∀ d, (eventLoop h (.data d) t).1 = none ∧
      (eventLoop h (.data d) t).2.eventQueue =
        match h.calculateSignal
          (t.trace ++ [.dispatch (.data d), .portfolioUpdate d, .statisticUpdate d]) d with
        | .error _ => t.eventQueue
        | .ok s => t.eventQueue ++ [.signal s]) ∧
    (∀ s, (eventLoop h (.signal s) t).1 = none ∧
      (eventLoop h (.signal s) t).2.eventQueue =
        match h.onSignal (t.trace ++ [.dispatch (.signal s)]) s with
        | .error _ => t.eventQueue
        | .ok o => t.eventQueue ++ [.order o]) ∧
    (∀ o, (eventLoop h (.order o) t).1 = none ∧
      (eventLoop h (.order o) t).2.eventQueue =
        match h.executeOrder (t.trace ++ [.dispatch (.order o)]) o with
        | .error _ => t.eventQueue
        | .ok f => t.eventQueue ++ [.fill f]) := by
  refine ⟨fun d => ⟨eventLoop_fst h _ t, ?_⟩, fun s => ⟨eventLoop_fst h _ t, ?_⟩,
    fun o => ⟨eventLoop_fst h _ t, ?_⟩⟩
  · simp only [eventLoop, Test.log, List.append_assoc, List.singleton_append]
    split <;> simp_all [Test.enqueue]
  · simp only [eventLoop, Test.log, List.append_assoc, List.singleton_append]
    split <;> simp_all [Test.enqueue]
  · simp only [eventLoop, Test.log, List.append_assoc, List.singleton_append]
    split <;> simp_all [Test.enqueue]

/-- C10: `FillEvent` is terminal.  Dispatching a `FillEvent` leaves the queue
as it was whether or not `OnFill` returned an error, and the calls made are
`OnFill`, followed by one `TrackTransaction` of the returned transaction
exactly when `OnFill` returned no error: the number of `TrackTransaction`
calls grows by one in that case and stays as it was otherwise. -/
theorem eventLoop_fill_terminal (h : Handlers τ) (t : Test τ) (f : τ.FillEvent) :
    (eventLoop h (.fill f) t).1 = none ∧
    (eventLoop h (.fill f) t).2.eventQueue = t.eventQueue ∧
    (eventLoop h (.fill f) t).2.trace =
      t.trace ++ .dispatch (.fill f) ::
        (match h.onFill (t.trace ++ [.dispatch (.fill f)]) f with
         | .error err => [.onFill f (.error err)]
         | .ok x => [.onFill f (.ok x), .trackTransaction x]) ∧
    (eventLoop h (.fill f) t).2.trace.countP Call.isTrackTransaction =
      t.trace.countP Call.isTrackTransaction +
        (match h.onFill (t.trace ++ [.dispatch (.fill f)]) f with
         | .error _ => 0
         | .ok _ => 1) := by
  refine ⟨eventLoop_fst h _ t, ?_, ?_, ?_⟩
  · simp only [eventLoop, Test.log]
    split <;> rfl
  · simp only [eventLoop, Test.log]
    split <;> simp_all
  · simp only [eventLoop, Test.log]
    split <;> simp_all [Call.isTrackTransaction]

/-- C8: an iteration leaves the loop exactly when it starts on an empty
queue and `Next` reports end-of-stream (and it then leaves by `break`); so
for a data provider that yields finitely many bars and then reports
exhaustion, whatever the other handlers do and whatever the queue holds at
the start (the empty queue included), `Run` returns: from some bound on, every
bound on the number of iterations gives the same returned state. -/
theorem Run_terminates (h : Handlers τ) :
    (∀ t, (∀ t1, iteration h t ≠ .continue t1) ↔
      (t.eventQueue = [] ∧ h.next t.trace = none)) ∧
    (∀ t, t.eventQueue = [] → h.next t.trace = none →
      iteration h t = .break ⟨[], t.trace ++ [.next none]⟩) ∧
    ∀ bars, YieldsBars h bars → ∀ q, ∃ fuel t,
      ∀ n, fuel ≤ n → Run h q n = .returned none t := by
  refine ⟨fun t => ⟨fun hne => ?_, fun hc t1 => ?_⟩,
    fun t hq hn => iteration_empty_none h t hq hn, fun bars hb q => ?_⟩
  · rcases iteration_cases h t with ⟨hq, hn, _⟩ | ⟨d, _, _, h1⟩ | ⟨e, q, calls, succ, _, _, _, h1⟩
    · exact ⟨hq, hn⟩
    · exact absurd h1 (hne _)
    · exact absurd h1 (hne _)
  · rw [iteration_empty_none h t hc.1 hc.2]
    simp
  · obtain ⟨t1, ht1⟩ := runLoop_breaks h bars hb (measure bars (setup h q) + 1) (setup h q)
      (Nat.lt_succ_self _)
    refine ⟨measure bars (setup h q) + 1, t1.log .printResult, fun n hn => ?_⟩
    obtain ⟨k, rfl⟩ := Nat.exists_eq_add_of_le hn
    exact Run_of_break h q _ t1 (runLoop_break_add h _ k _ t1 ht1)

/-- Witness of C8: the run over the bars 7 and 9 with a failing strategy. -/
theorem Run_terminates_witness :
    YieldsBars (failingStrategy [7, 9]) [7, 9] ∧
    ∃ fuel t, ∀ n, fuel ≤ n → Run (failingStrategy [7, 9]) [] n = .returned none t :=
  ⟨fun _ => rfl, (Run_terminates (failingStrategy [7, 9])).2.2 [7, 9] (fun _ => rfl) []⟩

/-- C6: a dequeued event is dispatched and then passed to `TrackEvent`,
whatever its dispatch did; so at every iteration boundary of every run, and
when `Run` has returned, the dispatch marks and `TrackEvent` calls of the
call record are the dispatched events in order, each followed by its one
`TrackEvent`, and the tracked history is the sequence of dispatched events. -/
theorem tracked_eq_dispatched (h : Handlers τ) :
    (∀ e rest tr, iteration h ⟨e :: rest, tr⟩ =
      .continue ((eventLoop h e ⟨rest, tr⟩).2.log (.trackEvent e))) ∧
    ∀ q fuel,
      (Run h q fuel).test.trace.filter Call.isDispatchOrTrack =
        (dispatched (Run h q fuel).test.trace).flatMap dispatchThenTrack ∧
      tracked (Run h q fuel).test.trace = dispatched (Run h q fuel).test.trace := by
  refine ⟨fun e rest tr => iteration_cons h ⟨e :: rest, tr⟩ e rest rfl, fun q fuel => ?_⟩
  refine Run_invariant h
    (fun t => t.trace.filter Call.isDispatchOrTrack =
        (dispatched t.trace).flatMap dispatchThenTrack ∧
      tracked t.trace = dispatched t.trace)
    (fun t ht => iteration_interleaved h t ht) (fun t ht => ?_) q ?_ fuel
  · obtain ⟨hf, htd⟩ := ht
    simp only [dispatched, tracked] at hf htd
    simp [Test.log, dispatched, tracked, hf, htd, Call.isDispatchOrTrack,
      Call.dispatchedEvent, Call.trackedEvent]
  · simp [setup_eq, dispatched, tracked, Call.isDispatchOrTrack, Call.dispatchedEvent,
      Call.trackedEvent]

/-- C7: the event queue is FIFO.  `nextEvent` on a non-empty queue returns
its head and leaves its tail; on an empty queue it returns `ok = false` and
leaves the queue empty; `eventLoop` and the data pull of `Run` only append at
the tail; so in every run the starting queue followed by the events appended
since, in the order they were appended, is the sequence of events dispatched
so far followed by the queue. -/
theorem eventQueue_fifo (h : Handlers τ) :
    (∀ e q tr, nextEvent (⟨e :: q, tr⟩ : Test τ) = (some e, ⟨q, tr⟩)) ∧
    (∀ tr, nextEvent (⟨[], tr⟩ : Test τ) = (none, ⟨[], tr⟩)) ∧
    (∀ e t, ∃ succ, (eventLoop h e t).2.eventQueue = t.eventQueue ++ succ ∧ succ.length ≤ 1) ∧
    (∀ tr, (iteration h ⟨[], tr⟩).test.eventQueue =
      match h.next tr with
      | none => []
      | some d => [] ++ [.data d]) ∧
    ∀ q fuel, q ++ enqueued (Run h q fuel).test.trace =
      dispatched (Run h q fuel).test.trace ++ (Run h q fuel).test.eventQueue := by
  refine ⟨fun _ _ _ => rfl, fun _ => rfl, fun e t => ?_, fun tr => ?_, fun q fuel => ?_⟩
  · obtain ⟨calls, succ, hst, heq⟩ := eventLoop_stage h e t
    refine ⟨succ, by rw [heq], ?_⟩
    cases hst <;> simp
  · cases hn : h.next tr with
    | none => rw [iteration_empty_none h ⟨[], tr⟩ rfl hn]; rfl
    | some d => rw [iteration_empty_some h ⟨[], tr⟩ d rfl hn]; rfl
  · refine Run_invariant h
      (fun t => q ++ enqueued t.trace = dispatched t.trace ++ t.eventQueue)
      (fun t ht => iteration_fifo h q t ht) (fun t ht => ?_) q ?_ fuel
    · simp only [dispatched, enqueued] at ht
      simp [Test.log, dispatched, enqueued, ht, Call.dispatchedEvent, Call.enqueuedEvent]
    · simp [setup_eq, dispatched, enqueued, Call.dispatchedEvent, Call.enqueuedEvent]

/-- C9: when `CalculateSignal` returns an error at every call, no Signal,
Order or Fill event is ever passed to `TrackEvent`: in every run whose queue
holds no such event at the start (the empty queue of a fresh `Test`
included), at every iteration boundary and after the return, the tracked
history consists of Data events only. -/
theorem tracked_only_data (h : Handlers τ)
    (hS : ∀ tr d, ∃ err, h.calculateSignal tr d = .error err)
    (q : List (Event τ)) (hq : ∀ e ∈ q, e.isData = true) (fuel : Nat) :
    ∀ e ∈ tracked (Run h q fuel).test.trace, e.isData = true := by
  refine (Run_invariant h
    (fun t => (∀ e ∈ t.eventQueue, e.isData = true) ∧ ∀ e ∈ tracked t.trace, e.isData = true)
    (fun t ht => iteration_only_data h hS t ht) (fun t ht => ?_) q ?_ fuel).2
  · obtain ⟨h1, h2⟩ := ht
    simp only [tracked] at h2
    exact ⟨h1, by simpa [Test.log, tracked, Call.trackedEvent] using h2⟩
  · exact ⟨by simpa [setup_eq] using hq, by simp [setup_eq, tracked, Call.trackedEvent]⟩

/-- Witness of C9: the run over the bars 7 and 9 with a failing strategy,
started on a queue that already holds the bar 5. -/
theorem tracked_only_data_witness :
    (∀ tr d, ∃ err, (failingStrategy [7, 9]).calculateSignal tr d = .error err) ∧
    (∀ e ∈ [(Event.data (5 : Nat) : Event exTypes)], e.isData = true) ∧
    ∀ e ∈ tracked (Run (failingStrategy [7, 9]) [.data (5 : Nat)] 6).test.trace,
      e.isData = true :=
  ⟨fun _ _ => ⟨_, rfl⟩, by simp [Event.isData],
    tracked_only_data (failingStrategy [7, 9]) (fun _ _ => ⟨_, rfl⟩) [.data (5 : Nat)]
      (by simp [Event.isData]) 6⟩

/-- C16: dispatching a `DataEvent` calls `portfolio.Update`, then
`statistic.Update`, then `strategy.CalculateSignal`, each once and in this
order, whatever `CalculateSignal` returns; dispatching a Signal, Order or
Fill event calls neither update (a Data dispatch makes two update calls,
every other dispatch none). -/
theorem eventLoop_data_updates (h : Handlers τ) (t : Test τ) :
    (∀ d, (eventLoop h (.data d) t).2.trace =
      t.trace ++ [.dispatch (.data d), .portfolioUpdate d, .statisticUpdate d,
        .calculateSignal d (h.calculateSignal
          (t.trace ++ [.dispatch (.data d), .portfolioUpdate d, .statisticUpdate d]) d)]) ∧
    ∀ e, ∃ calls, (eventLoop h e t).2.trace = t.trace ++ calls ∧
      calls.countP Call.isUpdate = if e.isData then 2 else 0 := by
  refine ⟨fun d => ?_, fun e => ?_⟩
  · simp only [eventLoop, Test.log]
    split <;> simp_all [Test.enqueue]
  · obtain ⟨calls, succ, hst, heq⟩ := eventLoop_stage h e t
    refine ⟨.dispatch e :: calls, by rw [heq], ?_⟩
    cases hst <;> simp [Call.isUpdate, Event.isData]

/-- C17: in every run, at every iteration boundary and after the return, the
call record starts with `Stream`, `InitialCash` and the `SetCash` of the
amount `InitialCash` returned, and nothing after these three is one of them:
`SetCash` is called exactly once, and every `Next`, every dispatch and every
other handler call of the run except `Stream` and the `InitialCash` that
supplies the amount comes after it. -/
theorem setCash_once_first (h : Handlers τ) (q : List (Event τ)) (fuel : Nat) :
    ∃ rest, (Run h q fuel).test.trace =
        [.stream, .initialCash (h.initialCash [.stream]),
          .setCash (h.initialCash [.stream])] ++ rest ∧
      rest.countP Call.isSetup = 0 ∧
      (Run h q fuel).test.trace.countP Call.isSetCash = 1 := by
  have key := Run_invariant h
    (fun t => ∃ rest, t.trace = (setup h q).trace ++ rest ∧
      rest.countP Call.isSetup = 0 ∧ rest.countP Call.isSetCash = 0)
    (fun t ht => by
      obtain ⟨rest, h1, h2, h3⟩ := ht
      obtain ⟨ext, h4, h5, h6⟩ := iteration_setup_calls h t
      refine ⟨rest ++ ext, ?_, ?_, ?_⟩
      · rw [h4, h1, List.append_assoc]
      · rw [List.countP_append, h2, h5]
      · rw [List.countP_append, h3, h6])
    (fun t ht => by
      obtain ⟨rest, h1, h2, h3⟩ := ht
      refine ⟨rest ++ [.printResult], ?_, ?_, ?_⟩
      · simp [Test.log, h1]
      · rw [List.countP_append, h2]; simp [Call.isSetup]
      · rw [List.countP_append, h3]; simp [Call.isSetCash])
    q ⟨[], by simp, by simp, by simp⟩ fuel
  obtain ⟨rest, h1, h2, h3⟩ := key
  refine ⟨rest, by rw [h1, setup_eq], h2, ?_⟩
  rw [h1, List.countP_append, h3, setup_eq]
  simp [Call.isSetCash]

/-- C18: in every run started on an empty queue the queue holds at most one
event at the start of every loop iteration (and after the return) and after
every dispatch; an iteration that starts on a non-empty queue makes no `Next`
call, one that starts on an empty queue makes exactly one. -/
theorem eventQueue_at_most_one (h : Handlers τ) :
    (∀ fuel, (Run h [] fuel).test.eventQueue.length ≤ 1) ∧
    (∀ fuel t e rest, Run h [] fuel = .running t → t.eventQueue = e :: rest →
      rest = [] ∧ (eventLoop h e ⟨rest, t.trace⟩).2.eventQueue.length ≤ 1) ∧
    (∀ t, t.eventQueue ≠ [] → nextCalls (iteration h t).test.trace = nextCalls t.trace) ∧
    (∀ t, t.eventQueue = [] →
      nextCalls (iteration h t).test.trace = nextCalls t.trace + 1) := by
  have hlen : ∀ fuel, (Run h [] fuel).test.eventQueue.length ≤ 1 := fun fuel =>
    Run_invariant h (fun t => t.eventQueue.length ≤ 1)
      (fun t ht => iteration_queue_length h t ht) (fun t ht => by simpa [Test.log] using ht)
      [] (by simp [setup_eq]) fuel
  refine ⟨hlen, fun fuel t e rest hr hq => ?_, fun t => (iteration_nextCalls h t).1,
    fun t => (iteration_nextCalls h t).2⟩
  have h1 := hlen fuel
  rw [hr] at h1
  simp only [RunResult.test, hq, List.length_cons] at h1
  have hrest : rest = [] := by
    cases rest with
    | nil => rfl
    | cons a b => simp at h1
  subst hrest
  refine ⟨rfl, ?_⟩
  obtain ⟨calls, succ, hst, heq⟩ := eventLoop_stage h e ⟨[], t.trace⟩
  rw [heq]
  cases hst <;> simp

/-- Witness of C18: after one iteration of the run over the bars 7 and 20 the
queue holds the bar 7; its dispatch leaves one event, the signal 8. -/
theorem eventQueue_at_most_one_witness :
    Run (okHandlers [7, 20]) [] 1 =
      .running ⟨[.data (7 : Nat)], [.stream, .initialCash (10000 : Nat),
        .setCash (10000 : Nat), .next (some (7 : Nat))]⟩ ∧
    (([] : List (Event exTypes)) = [] ∧
      (eventLoop (okHandlers [7, 20]) (.data (7 : Nat))
        ⟨[], [.stream, .initialCash (10000 : Nat), .setCash (10000 : Nat),
          .next (some (7 : Nat))]⟩).2.eventQueue.length ≤ 1) :=
  ⟨rfl, (eventQueue_at_most_one (okHandlers [7, 20])).2.1 1 _ (.data (7 : Nat)) [] rfl rfl⟩

/-- C11: causal chain.  In every run started on an empty queue, at every
iteration boundary and after the return, each event in the queue or in the
tracked history was produced by the stage before it (a Data event by `Next`,
a Signal by `CalculateSignal` in a Data dispatch, an Order by `OnSignal` in a
Signal dispatch, a Fill by `ExecuteOrder` in an Order dispatch); the call
record after the setup is a sequence of finished bar courses followed by the
bar in progress (or by the last `Next` and `PrintResult` after the return),
and the tracked history is the events of these courses: per bar a non-empty
beginning of Data, Signal, Order, Fill, cut at the first stage whose handler
returned an error. -/
theorem causal_chain (h : Handlers τ) (fuel : Nat) :
    (∀ e ∈ (Run h [] fuel).test.eventQueue ++ tracked (Run h [] fuel).test.trace,
      Produced (Run h [] fuel).test.trace e) ∧
    match Run h [] fuel with
    | .running t => ∃ (segs : List (BarRun τ)) (pend : List (Call τ)),
        Pending t.eventQueue pend ∧
        t.trace = (setup h []).trace ++ segs.flatMap BarRun.calls ++ pend ∧
        tracked t.trace = segs.flatMap BarRun.events ++ tracked pend
    | .returned err t => err = none ∧ ∃ segs : List (BarRun τ), t.eventQueue = [] ∧
        t.trace = (setup h []).trace ++ segs.flatMap BarRun.calls ++
          [.next none, .printResult] ∧
        tracked t.trace = segs.flatMap BarRun.events := by
  refine ⟨?_, ?_⟩
  · refine Run_invariant h
      (fun t => ∀ e ∈ t.eventQueue ++ tracked t.trace, Produced t.trace e)
      (fun t ht => iteration_produced h t ht) (fun t ht e he => ?_) [] ?_ fuel
    · have he1 : e ∈ t.eventQueue ++ tracked t.trace := by
        simpa [Test.log, tracked, Call.trackedEvent] using he
      exact produced_append _ _ _ (ht e he1)
    · intro e he
      simp [setup_eq, tracked, Call.trackedEvent] at he
  · have hinv := runLoop_two_invariants h (Coursed h) (Finished h)
      (coursed_continue h) (coursed_break h) fuel (setup h []) (coursed_setup h)
    have hsetup : tracked (setup h []).trace = [] := by
      simp [setup_eq, tracked, Call.trackedEvent]
    cases hrl : runLoop h fuel (setup h []) with
    | «continue» t1 =>
      rw [Run_test_of_running h [] fuel t1 hrl]
      obtain ⟨segs, pend, hp, htr⟩ := hinv.1 t1 hrl
      refine ⟨segs, pend, hp, htr, ?_⟩
      rw [htr, tracked_append, tracked_append, hsetup, (barRuns_observed segs).1]
      rfl
    | fail e1 t1 => exact absurd hrl (runLoop_ne_fail h fuel _ e1 t1)
    | «break» t1 =>
      rw [Run_of_break h [] fuel t1 hrl]
      obtain ⟨segs, hq, htr⟩ := hinv.2 t1 hrl
      refine ⟨rfl, segs, hq, by simp [Test.log, htr], ?_⟩
      simp only [Test.log]
      rw [htr, tracked_append, tracked_append, tracked_append, hsetup,
        (barRuns_observed segs).1]
      simp [tracked, Call.trackedEvent]

/-- C19: for a data provider that yields n bars and then reports exhaustion,
whatever the other handlers do, `Run` started on an empty queue returns nil,
having called `Next` exactly n + 1 times; the Data events it dispatched, and
those it tracked, are the n bars in stream order, each once; and it
dispatched at least n and at most 4n events. -/
theorem Run_bars_once (h : Handlers τ) (bars : List τ.DataEvent)
    (hdata : YieldsBars h bars) :
    ∃ fuel t, (∀ n, fuel ≤ n → Run h [] n = .returned none t) ∧
      nextCalls t.trace = bars.length + 1 ∧
      (dispatched t.trace).filter Event.isData = bars.map Event.data ∧
      (tracked t.trace).filter Event.isData = bars.map Event.data ∧
      bars.length ≤ (dispatched t.trace).length ∧
      (dispatched t.trace).length ≤ 4 * bars.length := by
  obtain ⟨t1, ht1⟩ := runLoop_breaks h bars hdata (measure bars (setup h []) + 1) (setup h [])
    (Nat.lt_succ_self _)
  obtain ⟨segs, _, htr⟩ := (runLoop_two_invariants h (Coursed h) (Finished h)
    (coursed_continue h) (coursed_break h) _ (setup h []) (coursed_setup h)).2 t1 ht1
  obtain ⟨hpull, hnext⟩ := (runLoop_two_invariants h
    (fun t => pulled t.trace = bars.take (nextCalls t.trace) ∧ nextCalls t.trace ≤ bars.length)
    (fun t => pulled t.trace = bars ∧ nextCalls t.trace = bars.length + 1)
    (cursor_continue h bars hdata) (cursor_break h bars hdata) _ (setup h [])
    (by simp [setup_eq, pulled, Call.pulledBar, nextCalls, Call.isNext])).2 t1 ht1
  have hbars : segs.map BarRun.bar = bars := by
    rw [htr, pulled_append, pulled_append, barRuns_pulled] at hpull
    simpa [setup_eq, pulled, Call.pulledBar] using hpull
  have hlen : segs.length = bars.length := by rw [← hbars, List.length_map]
  have hdisp : dispatched (t1.log .printResult).trace = segs.flatMap BarRun.events := by
    simp only [Test.log]
    rw [htr, dispatched_append, dispatched_append, dispatched_append,
      (barRuns_observed segs).2.1]
    simp [setup_eq, dispatched, Call.dispatchedEvent]
  have htrk : tracked (t1.log .printResult).trace = segs.flatMap BarRun.events := by
    simp only [Test.log]
    rw [htr, tracked_append, tracked_append, tracked_append, (barRuns_observed segs).1]
    simp [setup_eq, tracked, Call.trackedEvent]
  obtain ⟨e1, e2, e3⟩ := barRuns_events segs
  refine ⟨measure bars (setup h []) + 1, t1.log .printResult, fun n hn => ?_, ?_, ?_, ?_, ?_, ?_⟩
  · obtain ⟨k, rfl⟩ := Nat.exists_eq_add_of_le hn
    exact Run_of_break h [] _ t1 (runLoop_break_add h _ k _ t1 ht1)
  · simp only [Test.log, nextCalls_append, hnext]
    simp [nextCalls, Call.isNext]
  · rw [hdisp, e1, hbars]
  · rw [htrk, e1, hbars]
  · rw [hdisp, ← hlen]; exact e2
  · rw [hdisp, ← hlen]; exact e3

/-- Witness of C19: the bars 7 and 20 with handlers that never fail. -/
theorem Run_bars_once_witness :
    YieldsBars (okHandlers [7, 20]) [7, 20] ∧
    ∃ fuel t, (∀ n, fuel ≤ n → Run (okHandlers [7, 20]) [] n = .returned none t) ∧
      nextCalls t.trace = [7, 20].length + 1 ∧
      (dispatched t.trace).filter Event.isData = List.map Event.data [7, 20] ∧
      (tracked t.trace).filter Event.isData = List.map Event.data [7, 20] ∧
      [7, 20].length ≤ (dispatched t.trace).length ∧
      (dispatched t.trace).length ≤ 4 * [7, 20].length :=
  ⟨fun _ => rfl, Run_bars_once (okHandlers [7, 20]) [7, 20] (fun _ => rfl)⟩

/-- C12: for every strategy, `Strategies()` returns exactly the direct
children that are strategies, in their order among the children and without
the assets; `found` is true exactly when there is such a child, and false
exactly when the result is empty; the strategy is as it was. -/
theorem Strategies_direct_children (s : Strategy α δ ρ) :
    s.Strategies.1.map NodeHandler.strategy = s.children.filter NodeHandler.isStrategy ∧
    (s.Strategies.2.1 = true ↔ ∃ c ∈ s.children, c.isStrategy = true) ∧
    (s.Strategies.2.1 = false ↔ s.Strategies.1 = []) ∧
    s.Strategies.2.2 = s := by
  have hspec := collectStrategies_spec s.children
  unfold Strategy.Strategies
  cases hc : collectStrategies s.children with
  | nil =>
    rw [hc] at hspec
    refine ⟨hspec, ?_, by simp, rfl⟩
    simp only [Bool.false_eq_true, false_iff, not_exists, not_and]
    intro c hmem hstr
    have : c ∈ s.children.filter NodeHandler.isStrategy := List.mem_filter.2 ⟨hmem, hstr⟩
    rw [← hspec] at this
    simp at this
  | cons c cs =>
    rw [hc] at hspec
    refine ⟨hspec, ?_, by simp, rfl⟩
    simp only [true_iff]
    have : NodeHandler.strategy c ∈ s.children.filter NodeHandler.isStrategy := by
      rw [← hspec]; simp
    exact ⟨_, (List.mem_filter.1 this).1, rfl⟩

/-- C13: for every strategy, `Assets()` returns exactly the direct children
that are assets, in their order among the children and without the
strategies; `found` is true exactly when there is such a child, and false
exactly when the result is empty. -/
theorem Assets_direct_children (s : Strategy α δ ρ) :
    s.Assets.1.map NodeHandler.asset = s.children.filter (fun c => !c.isStrategy) ∧
    (s.Assets.2.1 = true ↔ ∃ c ∈ s.children, c.isStrategy = false) ∧
    (s.Assets.2.1 = false ↔ s.Assets.1 = []) := by
  have hspec := collectAssets_spec s.children
  unfold Strategy.Assets
  cases hc : collectAssets s.children with
  | nil =>
    rw [hc] at hspec
    refine ⟨hspec, ?_, by simp⟩
    simp only [Bool.false_eq_true, false_iff, not_exists, not_and]
    intro c hmem hstr
    have : c ∈ s.children.filter (fun c => !c.isStrategy) :=
      List.mem_filter.2 ⟨hmem, by simp [hstr]⟩
    rw [← hspec] at this
    simp at this
  | cons c cs =>
    rw [hc] at hspec
    refine ⟨hspec, ?_, by simp⟩
    simp only [true_iff]
    have : (NodeHandler.asset c : NodeHandler α δ ρ) ∈
        s.children.filter (fun c => !c.isStrategy) := by
      rw [← hspec]; simp
    exact ⟨_, (List.mem_filter.1 this).1, rfl⟩

/-- C14: `SetData(d)` returns a nil error, sets the data reference of the
strategy and of every strategy below it, at any depth, to `d`, and changes
nothing else: apart from the data references the tree is what it was (names,
root flags, children and their order, algo stacks, portfolio references,
assets).  `SetPortfolio(p)` does the same for the portfolio reference. -/
theorem SetData_SetPortfolio_frame (s : Strategy α δ ρ) (d : Option δ) (p : Option ρ) :
    ((s.SetData d).2 = none ∧
      (s.SetData d).1.data = d ∧
      (∀ c ∈ (s.SetData d).1.subStrategies, c.data = d) ∧
      (s.SetData d).1.eraseData = s.eraseData) ∧
    ((s.SetPortfolio p).2 = none ∧
      (s.SetPortfolio p).1.portfolio = p ∧
      (∀ c ∈ (s.SetPortfolio p).1.subStrategies, c.portfolio = p) ∧
      (s.SetPortfolio p).1.erasePortfolio = s.erasePortfolio) := by
  refine ⟨⟨rfl, ?_, subStrategies_withData d s, eraseData_withData d s⟩,
    ⟨rfl, ?_, subStrategies_withPortfolio p s, erasePortfolio_withPortfolio p s⟩⟩
  · cases s; rfl
  · cases s; rfl

/-- C15: `SetAlgo(a1, ..., aN)` leaves the strategy with its stack followed
by a1..aN in argument order, which is what N calls of `SetAlgo` with one algo
each, in the same order, leave; name, root flag, children, data and portfolio
are unchanged. -/
theorem SetAlgo_appends (s : Strategy α δ ρ) (algos : List α) :
    (s.SetAlgo algos).algos.stack = s.algos.stack ++ algos ∧
    algos.foldl (fun acc a => acc.SetAlgo [a]) s = s.SetAlgo algos ∧
    (s.SetAlgo algos).name = s.name ∧
    (s.SetAlgo algos).root = s.root ∧
    (s.SetAlgo algos).children = s.children ∧
    (s.SetAlgo algos).data = s.data ∧
    (s.SetAlgo algos).portfolio = s.portfolio := by
  obtain ⟨h1, h2, h3, h4, h5, h6⟩ := foldl_pushAlgo algos s
  exact ⟨h1, rfl, h2, h3, h4, h5, h6⟩

end Gobacktest
